import Mathlib

/-!
Shallow embedding of the snapshot-history core of the open-processing-views
extension (`popup.js` and `options.js`): the history merge (`appendSnapshot`),
the series builder (`buildState`), the two per-sketch increase computations,
and the totals / latest-delta / last-increase-lookback statistics, together
with theorems about them.

Modelling conventions:

* JavaScript fields that may be `undefined` (or fail an `Array.isArray`
  guard) are modelled with `Option`; view counts are `Int` (the value of
  `Number(x || 0)` on the collector's integer data); a sketch `id` is
  `some n` exactly when `Number(sketch?.id)` is a finite number `n`.
* `Date.parse` is a host function; it is threaded through the definitions
  as a parameter `parse : String → Option Int`, where `none` stands for
  `NaN`.
* `Array.prototype.sort` with a comparator `c` is modelled by the stable
  insertion sort `jsSort c`; per ECMA-262 `SortCompare`, a comparator
  result of `NaN` is treated as `+0` (this is built into the comparators
  below, which return `0` whenever a `NaN` would arise).
* A JavaScript `Map` is modelled as an insertion-ordered association list:
  `mapSet` updates an existing key in place or appends a new binding at the
  end, `mapGet` looks a key up — matching `Map.prototype.set/get` and the
  insertion-order iteration of `Map.prototype.values`.
-/

namespace OPViews

/-- A per-sketch record as consumed by the core.  `id` is `some n` exactly
when `Number(sketch?.id)` is a finite number `n`; `views` is the integer
value of `Number(sketch?.views || 0)`; `title` and `url` are `none` when the
field is absent. -/
structure Sketch where
  id : Option Int
  title : Option String
  views : Int
  url : Option String
deriving DecidableEq, Repr

/-- One stored capture.  `sketches` is `none` when the stored field is not an
array (the `Array.isArray` guard in the source). -/
structure Snapshot where
  date : Option String
  fetched_at : Option String
  page_url : Option String
  sketches : Option (List Sketch)
deriving DecidableEq, Repr

/-- The all-absent snapshot, used as a `getD` default. -/
def noSnap : Snapshot :=
  { date := none, fetched_at := none, page_url := none, sketches := none }

/-- `Array.isArray(snapshot?.sketches) ? snapshot.sketches : []`. -/
def sketchesOf (s : Snapshot) : List Sketch := s.sketches.getD []

/-- JavaScript `a || b` where `a` is an optional string: `undefined` and the
empty string are falsy. -/
def orFalsy (a : Option String) (b : String) : String :=
  match a with
  | some t => if t = "" then b else t
  | none => b

/-- The string whose parse gives the effective timestamp:
`snapshot?.fetched_at || snapshot?.date || ""`. -/
def effRaw (s : Snapshot) : String := orFalsy s.fetched_at (orFalsy s.date "")

/-- `options.js` `snapshotTime`: `Date.parse` of the effective-timestamp
string, with `NaN` mapped to epoch `0`. -/
def snapshotTime (parse : String → Option Int) (s : Snapshot) : Int :=
  (parse (effRaw s)).getD 0

/-- `options.js` `snapshotLabel`:
`snapshot?.fetched_at || snapshot?.date || "snapshot-" + (index+1)`. -/
def snapshotLabel (s : Snapshot) (index : Nat) : String :=
  orFalsy s.fetched_at (orFalsy s.date ("snapshot-" ++ toString (index + 1)))

/-- `String(sketch?.title || "Sketch " + id)`. -/
def jsTitle (t : Option String) (k : Int) : String :=
  orFalsy t ("Sketch " ++ toString k)

/-! ### JavaScript `Map` as an insertion-ordered association list -/

/-- `Map.prototype.get`. -/
def mapGet [DecidableEq κ] (m : List (κ × V)) (k : κ) : Option V :=
  match m with
  | [] => none
  | (k0, v0) :: rest => if k0 = k then some v0 else mapGet rest k

/-- `Map.prototype.set`: update an existing binding in place, else append. -/
def mapSet [DecidableEq κ] (m : List (κ × V)) (k : κ) (v : V) : List (κ × V) :=
  match m with
  | [] => [(k, v)]
  | (k0, v0) :: rest => if k0 = k then (k, v) :: rest else (k0, v0) :: mapSet rest k v

/-! ### JavaScript `Array.prototype.sort` as a stable insertion sort -/

/-- Insert `a` after every element `b` of the (sorted) list with
`cmp b a ≤ 0`; with a consistent comparator this realises exactly the stable
order required of `Array.prototype.sort`. -/
def insertCmp (cmp : α → α → Int) (a : α) : List α → List α
  | [] => [a]
  | b :: l => if cmp b a ≤ 0 then b :: insertCmp cmp a l else a :: b :: l

/-- Stable sort by a JavaScript comparator. -/
def jsSort (cmp : α → α → Int) (l : List α) : List α :=
  l.foldl (fun acc a => insertCmp cmp a acc) []

/-- Sort by an integer key, i.e. `jsSort` with the comparator
`(a, b) => key(a) - key(b)`. -/
def sortByKey (key : α → Int) (l : List α) : List α :=
  jsSort (fun a b => key a - key b) l

/-! ### popup.js: history merge -/

/-- The comparator of the sort inside `appendSnapshot`:
`Date.parse(left?.fetched_at || left?.date || "") - Date.parse(right…)`,
with a `NaN` result treated as `+0` by `SortCompare`. -/
def popupCmp (parse : String → Option Int) (a b : Snapshot) : Int :=
  match parse (effRaw a), parse (effRaw b) with
  | some x, some y => x - y
  | _, _ => 0

/-- `Array.prototype.findIndex`, from a running index; `none` models `-1`. -/
def findIndexFrom (p : α → Bool) (i : Nat) : List α → Option Nat
  | [] => none
  | a :: l => if p a then some i else findIndexFrom p (i + 1) l

/-- `Array.prototype.findIndex`; `none` models `-1`. -/
def findIndex (p : α → Bool) (l : List α) : Option Nat := findIndexFrom p 0 l

/-- `popup.js` `appendSnapshot`: replace the first entry with an identical
`fetched_at` in place, else push and re-sort the whole history by effective
timestamp.  Returns the new history (the source mutates its argument). -/
def appendSnapshot (parse : String → Option Int) (history : List Snapshot)
    (snap : Snapshot) : List Snapshot :=
  match findIndex (fun e => e.fetched_at == snap.fetched_at) history with
  | some i => history.set i snap
  | none => jsSort (popupCmp parse) (history ++ [snap])

/-! ### Delta analyzer (shared logic of `drawPopupStats` / `drawStats`) -/

/-- Per-snapshot total views, as computed in `drawPopupStats`:
`sketches.reduce((sum, sketch) => sum + Number(sketch?.views || 0), 0)`. -/
def totalsOf (history : List Snapshot) : List Int :=
  history.map (fun s => (sketchesOf s).foldl (fun sum sk => sum + sk.views) 0)

/-- The `index >= 1` backward scan of both `drawPopupStats` and `drawStats`,
started at `totals.length - 1`: the most recent index whose total strictly
exceeds its predecessor. -/
def lastIncreaseFrom (totals : List Int) : Nat → Option Nat
  | 0 => none
  | i + 1 =>
    if totals.getD i 0 < totals.getD (i + 1) 0 then some (i + 1)
    else lastIncreaseFrom totals i

/-- The whole backward scan of `drawPopupStats` / `drawStats`. -/
def lastIncreaseIndex (totals : List Int) : Option Nat :=
  lastIncreaseFrom totals (totals.length - 1)

/-- `options.js` `drawStats`:
`previousTotal = totals.length > 1 ? totals[totals.length-2] : null;`
`latestDelta = previousTotal === null ? null : latestTotal - previousTotal`. -/
def latestDelta (totals : List Int) : Option Int :=
  if totals.length > 1 then
    some (totals.getD (totals.length - 1) 0 - totals.getD (totals.length - 2) 0)
  else none

/-- The distinguishable outcomes of the breakdown line drawn by
`drawPopupStats` / `drawStats`. -/
inductive StatsOutcome
  /-- popup: empty history, "New views: waiting for captures". -/
  | noHistory
  /-- fewer than 2 snapshots: "New views: waiting for next capture …". -/
  | waitingNext
  /-- positive latest delta: "New views: +<delta> since …". -/
  | increased (delta : Int)
  /-- non-positive latest delta with a prior increase at `index`:
  "New views: none since … (+<delta>)". -/
  | lookback (index : Nat) (delta : Int)
  /-- non-positive latest delta and no adjacent increase anywhere:
  "New views: none observed yet". -/
  | noneObserved
deriving DecidableEq, Repr

/-- The control flow of `drawPopupStats` (and of `drawStats`, which differs
only in never being called on an empty history) as a function of the totals
sequence. -/
def drawStatsOutcome (totals : List Int) : StatsOutcome :=
  if totals.length = 0 then .noHistory
  else if totals.length < 2 then .waitingNext
  else if 0 < totals.getD (totals.length - 1) 0 - totals.getD (totals.length - 2) 0 then
    .increased (totals.getD (totals.length - 1) 0 - totals.getD (totals.length - 2) 0)
  else
    match lastIncreaseIndex totals with
    | some i => .lookback i (totals.getD i 0 - totals.getD (i - 1) 0)
    | none => .noneObserved

/-! ### popup.js: per-sketch increases from the two latest raw snapshots -/

/-- One entry of a per-sketch increase list. -/
structure Increase where
  id : Int
  title : String
  url : String
  delta : Int
deriving DecidableEq, Repr

/-- The body of the `previousSketches` loop of
`computeSketchIncreasesFromSnapshots`: skip non-finite ids, otherwise
`previousById.set(sketchId, Number(sketch?.views || 0))`. -/
def prevByIdStep (m : List (Int × Int)) (sk : Sketch) : List (Int × Int) :=
  match sk.id with
  | some k => mapSet m k sk.views
  | none => m

/-- The `previousById` map of `computeSketchIncreasesFromSnapshots`:
skip non-finite ids, later occurrences overwrite earlier ones. -/
def previousByIdOf (previousSnapshot : Snapshot) : List (Int × Int) :=
  (sketchesOf previousSnapshot).foldl prevByIdStep []

/-- Conditionally pushing the image of a loop body onto an accumulator array:
the shape shared by both increase-collection loops. -/
def optAppend (f : β → Option γ) (acc : List γ) (b : β) : List γ :=
  match f b with
  | some c => acc ++ [c]
  | none => acc

/-- The body of the `latestSketches` loop of
`computeSketchIncreasesFromSnapshots`: skip non-finite ids, compute the delta
against `Number(previousById.get(sketchId) || 0)`, and produce an entry only
when the delta is strictly positive. -/
def incOf (previousById : List (Int × Int)) (sk : Sketch) : Option Increase :=
  match sk.id with
  | none => none
  | some k =>
    if 0 < sk.views - (mapGet previousById k).getD 0 then
      some { id := k, title := jsTitle sk.title k, url := sk.url.getD "",
             delta := sk.views - (mapGet previousById k).getD 0 }
    else none

/-- `popup.js` `computeSketchIncreasesFromSnapshots`. -/
def computeSketchIncreasesFromSnapshots (previousSnapshot latestSnapshot : Snapshot) :
    List Increase :=
  let previousById := previousByIdOf previousSnapshot
  let increases := (sketchesOf latestSnapshot).foldl (optAppend (incOf previousById)) []
  jsSort (fun l r => r.delta - l.delta) increases

/-! ### options.js: series builder (`buildState`) -/

/-- The per-sketch accumulator stored in the `bySketch` map: metadata taken
from the first occurrence, plus a label-keyed points map. -/
structure SeriesAcc where
  id : Int
  title : String
  url : String
  points : List (String × Int)
deriving DecidableEq, Repr

/-- One point of a built series. -/
structure SeriesPoint where
  timeLabel : String
  date : String
  views : Int
deriving DecidableEq, Repr

/-- One built series. -/
structure SeriesLine where
  id : Int
  title : String
  url : String
  points : List SeriesPoint
  latestViews : Int
deriving DecidableEq, Repr

/-- The accumulator created for id `k` on first sight:
`{id, title: String(sketch?.title || …), url: String(sketch?.url || ""), points: new Map()}`. -/
def freshAcc (sk : Sketch) (k : Int) : SeriesAcc :=
  { id := k, title := jsTitle sk.title k, url := sk.url.getD "", points := [] }

/-- Processing one sketch record of the snapshot labelled `label` into the
`bySketch` map: skip non-finite ids, create the accumulator on first sight,
then `points.set(label, views)`. -/
def addSketch (label : String) (m : List (Int × SeriesAcc)) (sk : Sketch) :
    List (Int × SeriesAcc) :=
  match sk.id with
  | none => m
  | some k =>
    let acc := (mapGet m k).getD (freshAcc sk k)
    mapSet m k { acc with points := mapSet acc.points label sk.views }

/-- The `bySketch` accumulation loop over the normalized history, carrying the
running snapshot index. -/
def buildBySketchFrom (i : Nat) (m : List (Int × SeriesAcc)) :
    List Snapshot → List (Int × SeriesAcc)
  | [] => m
  | s :: rest =>
      buildBySketchFrom (i + 1) ((sketchesOf s).foldl (addSketch (snapshotLabel s i)) m) rest

/-- `state.timeLabels`: the labels of the normalized history, from a running
start index. -/
def labelsFrom (i : Nat) : List Snapshot → List String
  | [] => []
  | s :: rest => snapshotLabel s i :: labelsFrom (i + 1) rest

/-- `state.timeLabels` of a normalized history. -/
def labelsOf (n : List Snapshot) : List String := labelsFrom 0 n

/-- The `snapshotDateByLabel` map: label → `snapshot.fetched_at || snapshot.date`
(the stored value may itself be falsy), later entries overwriting earlier. -/
def dateByLabelFrom (i : Nat) (m : List (String × Option String)) :
    List Snapshot → List (String × Option String)
  | [] => m
  | s :: rest =>
      dateByLabelFrom (i + 1)
        (mapSet m (snapshotLabel s i)
          (match s.fetched_at with
           | some t => if t = "" then s.date else some t
           | none => s.date))
        rest

/-- `new Date(0).toISOString()`. -/
def epochIso : String := "1970-01-01T00:00:00.000Z"

/-- The point synthesized for one time label:
`{timeLabel, date: snapshotDateByLabel.get(timeLabel) || epoch,`
` views: Number(series.points.get(timeLabel) || 0)}`. -/
def mkPoint (dbl : List (String × Option String)) (acc : SeriesAcc) (lbl : String) :
    SeriesPoint :=
  { timeLabel := lbl,
    date := orFalsy (match mapGet dbl lbl with | some v => v | none => none) epochIso,
    views := (mapGet acc.points lbl).getD 0 }

/-- Finishing one `bySketch` accumulator into a series line with full-length
points and `latestViews`. -/
def finishLine (dbl : List (String × Option String)) (labels : List String)
    (acc : SeriesAcc) : SeriesLine :=
  let pts := labels.map (mkPoint dbl acc)
  { id := acc.id, title := acc.title, url := acc.url, points := pts,
    latestViews := ((pts.getLast?).map (fun p => p.views)).getD 0 }

/-- The unfiltered, unsorted series list of `buildState` over an already
normalized history. -/
def rawLines (n : List Snapshot) : List SeriesLine :=
  (buildBySketchFrom 0 [] n).map (fun kv => finishLine (dateByLabelFrom 0 [] n) (labelsOf n) kv.2)

/-- The series list of `buildState` over an already normalized history:
filter out all-nonpositive lines, sort descending by `latestViews`. -/
def builtSeries (n : List Snapshot) : List SeriesLine :=
  sortByKey (fun l => -l.latestViews)
    ((rawLines n).filter (fun l => l.points.any (fun p => decide (0 < p.views))))

/-- `options.js` `buildState` normalization:
`[...history].sort((a, b) => snapshotTime(a) - snapshotTime(b))`. -/
def normalizeHistory (parse : String → Option Int) (history : List Snapshot) :
    List Snapshot :=
  sortByKey (snapshotTime parse) history

/-- The full series output of `options.js` `buildState`. -/
def buildSeries (parse : String → Option Int) (history : List Snapshot) :
    List SeriesLine :=
  builtSeries (normalizeHistory parse history)

/-! ### options.js: per-sketch increases from the built series -/

/-- The default point used when indexing `line.points` (the source's
`points[i]?.views || 0` optional access). -/
def noPoint : SeriesPoint := { timeLabel := "", date := "", views := 0 }

/-- The body of the series loop of `computeLatestSketchIncreasesFromSeries`:
skip series with fewer than two points, compare the last two points, and
produce an entry only when the delta is strictly positive. -/
def incOfLine (line : SeriesLine) : Option Increase :=
  if line.points.length < 2 then none
  else
    if 0 < (line.points.getD (line.points.length - 1) noPoint).views -
        (line.points.getD (line.points.length - 2) noPoint).views then
      some { id := line.id,
             title := orFalsy (some line.title) ("Sketch " ++ toString line.id),
             url := line.url,
             delta := (line.points.getD (line.points.length - 1) noPoint).views -
               (line.points.getD (line.points.length - 2) noPoint).views }
    else none

/-- `options.js` `computeLatestSketchIncreasesFromSeries`. -/
def computeLatestSketchIncreasesFromSeries (series : List SeriesLine) : List Increase :=
  let increases := series.foldl (optAppend incOfLine) []
  jsSort (fun l r => r.delta - l.delta) increases

/-! ### Concrete data for witnesses and counterexamples

`demoParse` records the actual `Date.parse` values (UTC milliseconds) of the
date strings it covers and returns `none` (`NaN`) on everything else. -/

def demoParse : String → Option Int := fun t =>
  if t = "2020-01-01" then some 1577836800000
  else if t = "2020-01-02" then some 1577923200000
  else if t = "2021-01-01" then some 1609459200000
  else if t = "2030-01-01" then some 1893456000000
  else none

def snapA : Snapshot :=
  { date := some "2020-01-01", fetched_at := some "2020-01-01",
    page_url := none, sketches := some [] }

def snapB : Snapshot :=
  { date := some "2021-01-01", fetched_at := some "2021-01-01",
    page_url := none, sketches := some [] }

/-- A re-capture sharing `snapB`'s `fetched_at` but with different content. -/
def snapB2 : Snapshot :=
  { date := some "2021-01-01", fetched_at := some "2021-01-01",
    page_url := some "https://openprocessing.org/user/1",
    sketches := some [{ id := some 7, title := some "S", views := 3, url := none }] }

/-- A snapshot whose effective timestamp does not parse. -/
def snapX : Snapshot :=
  { date := none, fetched_at := some "garbage",
    page_url := none, sketches := some [] }

/-! ### Helper lemmas: `getD`/`set` and `findIndex` -/

theorem getD_set_self {l : List α} (a d : α) :
    ∀ {i : Nat}, i < l.length → (l.set i a).getD i d = a := by
  induction l with
  | nil => intro i hi; simp at hi
  | cons b t ih =>
    intro i hi
    cases i with
    | zero => rfl
    | succ n =>
      simp only [List.set_cons_succ, List.getD_cons_succ]
      exact ih (by simpa using hi)

theorem getD_set_ne {l : List α} (a d : α) :
    ∀ {i j : Nat}, j ≠ i → (l.set i a).getD j d = l.getD j d := by
  induction l with
  | nil => intro i j _; rfl
  | cons b t ih =>
    intro i j hne
    cases i with
    | zero =>
      cases j with
      | zero => exact absurd rfl hne
      | succ m => rfl
    | succ n =>
      cases j with
      | zero => rfl
      | succ m =>
        simp only [List.set_cons_succ, List.getD_cons_succ]
        exact ih (by omega)

theorem findIndexFrom_eq_some_of (p : α → Bool) (d : α) {l : List α} :
    ∀ {k : Nat} (i : Nat), k < l.length → p (l.getD k d) = true →
      (∀ j, j < k → p (l.getD j d) = false) →
      findIndexFrom p i l = some (i + k) := by
  induction l with
  | nil => intro k i hk; simp at hk
  | cons a t ih =>
    intro k i hk hp hmin
    cases k with
    | zero =>
      have ha : p a = true := by simpa using hp
      rw [findIndexFrom, if_pos ha]
      norm_num
    | succ m =>
      have ha : p a = false := by simpa using hmin 0 (Nat.succ_pos m)
      have hrec := ih (k := m) (i + 1) (by simpa using hk) (by simpa using hp)
        (fun j hj => by simpa using hmin (j + 1) (by omega))
      rw [findIndexFrom, if_neg (by simp [ha]), hrec]
      congr 1
      omega

theorem findIndex_eq_some_of (p : α → Bool) (d : α) {l : List α} {k : Nat}
    (hk : k < l.length) (hp : p (l.getD k d) = true)
    (hmin : ∀ j, j < k → p (l.getD j d) = false) :
    findIndex p l = some k := by
  simpa [findIndex] using findIndexFrom_eq_some_of p d 0 hk hp hmin

theorem findIndex_eq_none_iff (p : α → Bool) (l : List α) :
    findIndex p l = none ↔ ∀ a ∈ l, p a = false := by
  suffices h : ∀ i, findIndexFrom p i l = none ↔ ∀ a ∈ l, p a = false by
    exact h 0
  induction l with
  | nil => simp [findIndexFrom]
  | cons a t ih =>
    intro i
    by_cases ha : p a = true
    · rw [findIndexFrom, if_pos ha]
      simp [ha]
    · rw [findIndexFrom, if_neg (by simp at ha; simp [ha])]
      have ha' : p a = false := by simpa using ha
      simp [ih (i + 1), ha']

theorem of_findIndexFrom_eq_some (p : α → Bool) (d : α) {l : List α} :
    ∀ {i k : Nat}, findIndexFrom p i l = some k →
      i ≤ k ∧ k - i < l.length ∧ p (l.getD (k - i) d) = true := by
  induction l with
  | nil => intro i k h; simp [findIndexFrom] at h
  | cons a t ih =>
    intro i k h
    by_cases ha : p a = true
    · rw [findIndexFrom, if_pos ha] at h
      obtain rfl : i = k := by simpa using h
      simpa using ha
    · rw [findIndexFrom, if_neg (by simp at ha; simp [ha])] at h
      obtain ⟨h1, h2, h3⟩ := ih h
      refine ⟨by omega, by simp only [List.length_cons]; omega, ?_⟩
      have hk : k - i = (k - (i + 1)) + 1 := by omega
      rw [hk, List.getD_cons_succ]
      exact h3

theorem of_findIndex_eq_some (p : α → Bool) (d : α) {l : List α} {k : Nat}
    (h : findIndex p l = some k) :
    k < l.length ∧ p (l.getD k d) = true := by
  have h2 := of_findIndexFrom_eq_some p d (l := l) (i := 0) (k := k) h
  exact ⟨by simpa using h2.2.1, by simpa using h2.2.2⟩

/-! ### C1: replace-on-duplicate merge -/

/-- C1: if the history holds exactly one entry (at position `i`) whose
`fetched_at` equals the incoming snapshot's `fetched_at`, then `appendSnapshot`
replaces that entry at its existing position: the result is `history.set i
snap`, the length is unchanged, the entry at `i` is the new snapshot, and
every other entry is unchanged. -/
theorem C1_replace_on_duplicate (parse : String → Option Int)
    (history : List Snapshot) (snap : Snapshot) (i : Nat)
    (hi : i < history.length)
    (hmatch : (history.getD i noSnap).fetched_at = snap.fetched_at)
    (huniq : ∀ j, j < history.length →
      (history.getD j noSnap).fetched_at = snap.fetched_at → j = i) :
    appendSnapshot parse history snap = history.set i snap ∧
    (appendSnapshot parse history snap).length = history.length ∧
    (appendSnapshot parse history snap).getD i noSnap = snap ∧
    ∀ j, j ≠ i → (appendSnapshot parse history snap).getD j noSnap =
      history.getD j noSnap := by
  have hfind : findIndex (fun e => e.fetched_at == snap.fetched_at) history = some i := by
    refine findIndex_eq_some_of _ noSnap hi (by simp only [beq_iff_eq]; exact hmatch) ?_
    intro j hj
    by_contra hc
    simp only [Bool.not_eq_false, beq_iff_eq] at hc
    have hj' : j < history.length := lt_trans hj hi
    have : j = i := huniq j hj' hc
    omega
  have happ : appendSnapshot parse history snap = history.set i snap := by
    simp [appendSnapshot, hfind]
  refine ⟨happ, ?_, ?_, ?_⟩
  · rw [happ]; simp
  · rw [happ]; exact getD_set_self snap noSnap hi
  · intro j hj; rw [happ]; exact getD_set_ne snap noSnap hj

/-- C1 witness: re-capturing `snapB` replaces it in place. -/
theorem C1_replace_on_duplicate_witness :
    appendSnapshot demoParse [snapA, snapB] snapB2 = [snapA, snapB2] := by
  have h := C1_replace_on_duplicate demoParse [snapA, snapB] snapB2 1
    (by decide) (by decide)
    (by
      intro j hj hm
      have hcase : j = 0 ∨ j = 1 := by
        simp only [List.length_cons, List.length_nil] at hj
        omega
      rcases hcase with h0 | h1
      · subst h0; exact absurd hm (by decide)
      · exact h1)
  exact h.1.trans (by decide)

/-! ### C6 / C7: latest delta and last-increase lookback -/

theorem lastIncreaseFrom_spec (totals : List Int) :
    ∀ n : Nat,
      (∀ i, lastIncreaseFrom totals n = some i →
        1 ≤ i ∧ i ≤ n ∧ totals.getD (i - 1) 0 < totals.getD i 0 ∧
        ∀ j, i < j → j ≤ n → totals.getD j 0 ≤ totals.getD (j - 1) 0) ∧
      (lastIncreaseFrom totals n = none →
        ∀ j, 1 ≤ j → j ≤ n → totals.getD j 0 ≤ totals.getD (j - 1) 0) := by
  intro n
  induction n with
  | zero =>
    constructor
    · intro i h; simp [lastIncreaseFrom] at h
    · intro _ j h1 h2; omega
  | succ m ih =>
    by_cases hinc : totals.getD m 0 < totals.getD (m + 1) 0
    · constructor
      · intro i h
        rw [lastIncreaseFrom, if_pos hinc] at h
        obtain rfl : i = m + 1 := by simpa using h.symm
        exact ⟨by omega, le_refl _, by simpa using hinc, fun j hj1 hj2 => by omega⟩
      · intro h
        rw [lastIncreaseFrom, if_pos hinc] at h
        simp at h
    · constructor
      · intro i h
        rw [lastIncreaseFrom, if_neg hinc] at h
        obtain ⟨h1, h2, h3, h4⟩ := ih.1 i h
        refine ⟨h1, by omega, h3, ?_⟩
        intro j hj1 hj2
        rcases Nat.lt_or_ge j (m + 1) with hlt | hge
        · exact h4 j hj1 (by omega)
        · obtain rfl : j = m + 1 := by omega
          simpa using le_of_not_lt hinc
      · intro h
        rw [lastIncreaseFrom, if_neg hinc] at h
        intro j hj1 hj2
        rcases Nat.lt_or_ge j (m + 1) with hlt | hge
        · exact ih.2 h j hj1 (by omega)
        · obtain rfl : j = m + 1 := by omega
          simpa using le_of_not_lt hinc

/-- C6 (amended): for a totals sequence of length at least 2 whose latest
delta is non-positive, the backward scan reports the most recent index `i`
with `totals[i] > totals[i-1]` together with that pair's delta, and reports
the distinct "none observed yet" outcome when no adjacent increasing pair
exists anywhere; for `[100, 150, 150]` it reports index 1 with delta 50. -/
theorem C6_lookback (totals : List Int) (h2 : 2 ≤ totals.length)
    (hle : totals.getD (totals.length - 1) 0 ≤ totals.getD (totals.length - 2) 0) :
    ((∃ i, 1 ≤ i ∧ i < totals.length ∧
        totals.getD (i - 1) 0 < totals.getD i 0 ∧
        (∀ j, i < j → j < totals.length →
          totals.getD j 0 ≤ totals.getD (j - 1) 0) ∧
        drawStatsOutcome totals = .lookback i (totals.getD i 0 - totals.getD (i - 1) 0)) ∨
      ((∀ j, 1 ≤ j → j < totals.length →
          totals.getD j 0 ≤ totals.getD (j - 1) 0) ∧
        drawStatsOutcome totals = .noneObserved)) ∧
    drawStatsOutcome [100, 150, 150] = .lookback 1 50 := by
  constructor
  · have h0 : ¬ totals.length = 0 := by omega
    have h1 : ¬ totals.length < 2 := by omega
    have hd : ¬ (0 < totals.getD (totals.length - 1) 0 -
        totals.getD (totals.length - 2) 0) := by omega
    cases heq : lastIncreaseIndex totals with
    | some i =>
      left
      obtain ⟨hi1, hi2, hi3, hi4⟩ := (lastIncreaseFrom_spec totals (totals.length - 1)).1 i heq
      refine ⟨i, hi1, by omega, hi3, ?_, ?_⟩
      · intro j hj1 hj2; exact hi4 j hj1 (by omega)
      · simp only [drawStatsOutcome, if_neg h0, if_neg h1, if_neg hd, heq]
    | none =>
      right
      refine ⟨?_, ?_⟩
      · intro j hj1 hj2
        exact (lastIncreaseFrom_spec totals (totals.length - 1)).2 heq j hj1 (by omega)
      · simp only [drawStatsOutcome, if_neg h0, if_neg h1, if_neg hd, heq]
  · decide

/-- C6 witness: the concrete totals `[100, 150, 150]`. -/
theorem C6_lookback_witness :
    drawStatsOutcome [100, 150, 150] = .lookback 1 50 :=
  (C6_lookback [100, 150, 150] (by decide) (by decide)).2

/-- C7: `latestDelta` is `null` exactly when fewer than 2 totals exist, is
`totals[last] - totals[last-1]` otherwise (negative values allowed), and a
history of length 1 yields the "waiting for next capture" outcome, never an
error. -/
theorem C7_latest_delta (totals : List Int) (history : List Snapshot)
    (h1 : history.length = 1) :
    (latestDelta totals = none ↔ totals.length < 2) ∧
    (2 ≤ totals.length → latestDelta totals =
      some (totals.getD (totals.length - 1) 0 - totals.getD (totals.length - 2) 0)) ∧
    drawStatsOutcome (totalsOf history) = .waitingNext ∧
    latestDelta [100, 60] = some (-40) := by
  refine ⟨?_, ?_, ?_, by decide⟩
  · unfold latestDelta
    by_cases h : totals.length > 1
    · rw [if_pos h]; simp; omega
    · rw [if_neg h]; simp; omega
  · intro h2
    unfold latestDelta
    rw [if_pos (by omega)]
  · have hl : (totalsOf history).length = 1 := by
      simpa [totalsOf] using h1
    unfold drawStatsOutcome
    rw [hl]
    norm_num

/-- C7 witness: a single-snapshot history and the totals `[100, 60]`. -/
theorem C7_latest_delta_witness :
    latestDelta [100] = none ∧
    drawStatsOutcome (totalsOf [snapA]) = .waitingNext ∧
    latestDelta [100, 60] = some (-40) := by
  have h := C7_latest_delta [100] [snapA] (by decide)
  exact ⟨h.1.mpr (by decide), h.2.2.1, h.2.2.2⟩

/-! ### C9: increase ranking on the concrete example -/

def prevC9 : Snapshot :=
  { date := some "2020-01-01", fetched_at := some "2020-01-01", page_url := none,
    sketches := some
      [{ id := some 1, title := some "A", views := 10, url := some "https://e/a" },
       { id := some 2, title := some "B", views := 5, url := some "https://e/b" }] }

def latestC9 : Snapshot :=
  { date := some "2020-01-02", fetched_at := some "2020-01-02", page_url := none,
    sketches := some
      [{ id := some 1, title := some "A", views := 12, url := some "https://e/a" },
       { id := some 2, title := some "B", views := 5, url := some "https://e/b" },
       { id := some 3, title := some "C", views := 3, url := some "https://e/c" }] }

/-- C9 counterexample: on previous `{A:10, B:5}` and latest
`{A:12, B:5, C:3}`, the computed increases are not `[{A, delta:2}]` — the
newly appearing `C` is included with delta 3. -/
theorem C9_counterexample :
    computeSketchIncreasesFromSnapshots prevC9 latestC9 ≠
      [{ id := 1, title := "A", url := "https://e/a", delta := 2 }] := by
  decide

/-- C9 (amended): on previous `{A:10, B:5}` and latest `{A:12, B:5, C:3}`,
the per-entity increases are `[{C, delta:3}, {A, delta:2}]`: the baseline for
an entity missing from the previous snapshot is 0, so the newly appearing `C`
is included with delta 3; `B` (delta 0) is excluded; the result is sorted
descending by delta. -/
theorem C9_increase_ranking :
    computeSketchIncreasesFromSnapshots prevC9 latestC9 =
      [{ id := 3, title := "C", url := "https://e/c", delta := 3 },
       { id := 1, title := "A", url := "https://e/a", delta := 2 }] := by
  decide

/-! ### C8: unparsable timestamps -/

/-- C8 counterexample: in `popup.js`'s `appendSnapshot` sort, an entry whose
effective timestamp does not parse is not treated as epoch 0: the comparator
yields 0 ("equal") against an entry with a strictly positive timestamp (an
epoch-0 treatment would yield a strictly negative comparison), and merging
such an entry leaves it at the end of the history instead of sorting it
before all positive timestamps. -/
theorem C8_counterexample :
    demoParse (effRaw snapX) = none ∧
    snapshotTime demoParse snapX = 0 ∧
    0 < snapshotTime demoParse snapA ∧
    popupCmp demoParse snapX snapA = 0 ∧
    popupCmp demoParse snapX snapA ≠
      snapshotTime demoParse snapX - snapshotTime demoParse snapA ∧
    appendSnapshot demoParse [snapA, snapB] snapX = [snapA, snapB, snapX] := by
  refine ⟨by decide, by decide, by decide, by decide, by decide, by decide⟩

/-- C8 (amended): an entry whose effective timestamp is missing or unparsable
never makes sorting or comparison fail: `options.js`'s `snapshotTime` treats
it as epoch 0, while in `popup.js`'s `appendSnapshot` sort every comparison
involving it evaluates to 0 (treated as "equal" per `SortCompare`), so the
stable sort keeps such entries in place rather than sorting them as epoch 0. -/
theorem C8_unparsable_timestamps (parse : String → Option Int) (s b : Snapshot)
    (hs : parse (effRaw s) = none) :
    snapshotTime parse s = 0 ∧ popupCmp parse s b = 0 ∧ popupCmp parse b s = 0 := by
  refine ⟨?_, ?_, ?_⟩
  · simp [snapshotTime, hs]
  · simp only [popupCmp, hs]
  · simp only [popupCmp, hs]
    cases parse (effRaw b) <;> rfl

/-- C8 witness: the concrete snapshot `snapX` under `demoParse`. -/
theorem C8_unparsable_timestamps_witness :
    snapshotTime demoParse snapX = 0 ∧
    popupCmp demoParse snapX snapA = 0 ∧ popupCmp demoParse snapA snapX = 0 :=
  C8_unparsable_timestamps demoParse snapX snapA (by decide)

/-- C6 counterexample: with a single snapshot (no comparison possible) the
code shows the "waiting for next capture" state and never reaches the
lookback, so it does not report the "none observed yet" outcome the claim
requires for that case. -/
theorem C6_counterexample :
    drawStatsOutcome [100] = .waitingNext ∧
    drawStatsOutcome [100] ≠ .noneObserved := by
  refine ⟨by decide, by decide⟩

/-! ### Properties of the stable-sort model -/

theorem insertCmp_perm (cmp : α → α → Int) (a : α) (l : List α) :
    List.Perm (insertCmp cmp a l) (a :: l) := by
  induction l with
  | nil => exact List.Perm.refl _
  | cons b t ih =>
    rw [insertCmp]
    split
    · exact (ih.cons b).trans (List.Perm.swap a b t)
    · exact List.Perm.refl _

theorem foldl_insertCmp_perm (cmp : α → α → Int) :
    ∀ (l acc : List α),
      List.Perm (l.foldl (fun acc a => insertCmp cmp a acc) acc) (acc ++ l) := by
  intro l
  induction l with
  | nil => intro acc; simp
  | cons x xs ih =>
    intro acc
    rw [List.foldl_cons]
    refine (ih (insertCmp cmp x acc)).trans ?_
    refine ((insertCmp_perm cmp x acc).append_right xs).trans ?_
    exact List.perm_middle.symm

theorem jsSort_perm (cmp : α → α → Int) (l : List α) :
    List.Perm (jsSort cmp l) l := by
  exact foldl_insertCmp_perm cmp l []

theorem mem_insertCmp {cmp : α → α → Int} {a x : α} {l : List α} :
    x ∈ insertCmp cmp a l ↔ x = a ∨ x ∈ l := by
  rw [(insertCmp_perm cmp a l).mem_iff]
  simp

theorem insertCmp_key_sorted (key : α → Int) (a : α) {l : List α}
    (hl : l.Pairwise (fun x y => key x ≤ key y)) :
    (insertCmp (fun x y => key x - key y) a l).Pairwise (fun x y => key x ≤ key y) := by
  induction l with
  | nil => simp [insertCmp]
  | cons b t ih =>
    rw [List.pairwise_cons] at hl
    rw [insertCmp]
    split
    · next h =>
      have hba : key b ≤ key a := by omega
      refine List.pairwise_cons.mpr ⟨?_, ih hl.2⟩
      intro x hx
      rcases mem_insertCmp.mp hx with rfl | hx
      · exact hba
      · exact hl.1 x hx
    · next h =>
      have hab : key a ≤ key b := by omega
      refine List.pairwise_cons.mpr ⟨?_, List.pairwise_cons.mpr hl⟩
      intro x hx
      rcases List.mem_cons.mp hx with rfl | hx
      · exact hab
      · exact le_trans hab (hl.1 x hx)

theorem sortByKey_sorted (key : α → Int) (l : List α) :
    (sortByKey key l).Pairwise (fun x y => key x ≤ key y) := by
  suffices h : ∀ (l acc : List α), acc.Pairwise (fun x y => key x ≤ key y) →
      (l.foldl (fun acc a => insertCmp (fun x y => key x - key y) a acc) acc).Pairwise
        (fun x y => key x ≤ key y) by
    exact h l [] (by simp)
  intro l
  induction l with
  | nil => intro acc hacc; simpa using hacc
  | cons x xs ih =>
    intro acc hacc
    exact ih _ (insertCmp_key_sorted key x hacc)

theorem sortByKey_perm (key : α → Int) (l : List α) :
    List.Perm (sortByKey key l) l :=
  jsSort_perm _ l

theorem insertCmp_congr {cmp cmp' : α → α → Int} (a : α) {l : List α}
    (h : ∀ x ∈ l, cmp x a = cmp' x a) :
    insertCmp cmp a l = insertCmp cmp' a l := by
  induction l with
  | nil => rfl
  | cons b t ih =>
    have hb : cmp b a = cmp' b a := h b (by simp)
    rw [insertCmp, insertCmp, hb]
    split
    · rw [ih (fun x hx => h x (by simp [hx]))]
    · rfl

theorem jsSort_congr {cmp cmp' : α → α → Int} (P : α → Prop)
    (hcc : ∀ x y, P x → P y → cmp x y = cmp' x y) :
    ∀ (l acc : List α), (∀ x ∈ l, P x) → (∀ x ∈ acc, P x) →
      l.foldl (fun acc a => insertCmp cmp a acc) acc =
        l.foldl (fun acc a => insertCmp cmp' a acc) acc := by
  intro l
  induction l with
  | nil => intro acc _ _; rfl
  | cons x xs ih =>
    intro acc hl hacc
    have hx : P x := hl x (by simp)
    have hstep : insertCmp cmp x acc = insertCmp cmp' x acc :=
      insertCmp_congr x (fun y hy => hcc y x (hacc y hy) hx)
    have hmem : ∀ y ∈ insertCmp cmp' x acc, P y := by
      intro y hy
      rcases mem_insertCmp.mp hy with rfl | hy
      · exact hx
      · exact hacc y hy
    simp only [List.foldl_cons, hstep]
    exact ih _ (fun y hy => hl y (by simp [hy])) hmem

theorem jsSort_eq_of_congr {cmp cmp' : α → α → Int} (P : α → Prop)
    (hcc : ∀ x y, P x → P y → cmp x y = cmp' x y) (l : List α)
    (hl : ∀ x ∈ l, P x) :
    jsSort cmp l = jsSort cmp' l :=
  jsSort_congr P hcc l [] hl (by simp)

theorem insertCmp_map (φ : α → β) (cmpb : β → β → Int) (cmpa : α → α → Int)
    (h : ∀ x y, cmpb (φ x) (φ y) = cmpa x y) (a : α) (l : List α) :
    insertCmp cmpb (φ a) (l.map φ) = (insertCmp cmpa a l).map φ := by
  induction l with
  | nil => rfl
  | cons b t ih =>
    simp only [List.map_cons, insertCmp, h b a]
    split
    · simp [ih]
    · simp

theorem jsSort_map (φ : α → β) (cmpb : β → β → Int) (cmpa : α → α → Int)
    (h : ∀ x y, cmpb (φ x) (φ y) = cmpa x y) (l : List α) :
    jsSort cmpb (l.map φ) = (jsSort cmpa l).map φ := by
  suffices haux : ∀ (l acc : List α),
      (l.map φ).foldl (fun acc a => insertCmp cmpb a acc) (acc.map φ) =
        (l.foldl (fun acc a => insertCmp cmpa a acc) acc).map φ by
    simpa using haux l []
  intro l
  induction l with
  | nil => intro acc; rfl
  | cons x xs ih =>
    intro acc
    simp only [List.map_cons, List.foldl_cons, insertCmp_map φ cmpb cmpa h]
    exact ih (insertCmp cmpa x acc)

/-! ### C2: the sort invariant of repeated merges -/

/-- A snapshot with a non-empty `fetched_at` whose value parses: the input
contract of the merge. -/
def goodSnap (parse : String → Option Int) (s : Snapshot) : Bool :=
  match s.fetched_at with
  | some t => (!decide (t = "")) && (parse t).isSome
  | none => false

theorem goodSnap_effRaw {parse : String → Option Int} {s : Snapshot}
    (h : goodSnap parse s = true) :
    ∃ t, s.fetched_at = some t ∧ effRaw s = t ∧ (parse t).isSome = true := by
  unfold goodSnap at h
  cases hf : s.fetched_at with
  | none => rw [hf] at h; simp at h
  | some t =>
    rw [hf] at h
    simp only [Bool.and_eq_true, Bool.not_eq_true', decide_eq_false_iff_not] at h
    refine ⟨t, rfl, ?_, h.2⟩
    simp [effRaw, orFalsy, hf, h.1]

theorem popupCmp_eq_of_good {parse : String → Option Int} {a b : Snapshot}
    (ha : goodSnap parse a = true) (hb : goodSnap parse b = true) :
    popupCmp parse a b = snapshotTime parse a - snapshotTime parse b := by
  obtain ⟨ta, -, hea, hpa⟩ := goodSnap_effRaw ha
  obtain ⟨tb, -, heb, hpb⟩ := goodSnap_effRaw hb
  rw [Option.isSome_iff_exists] at hpa hpb
  obtain ⟨x, hx⟩ := hpa
  obtain ⟨y, hy⟩ := hpb
  simp [popupCmp, snapshotTime, hea, heb, hx, hy]

theorem fetched_at_congr_time {parse : String → Option Int} {a b : Snapshot}
    (ha : goodSnap parse a = true) (hb : goodSnap parse b = true)
    (h : a.fetched_at = b.fetched_at) :
    snapshotTime parse a = snapshotTime parse b := by
  obtain ⟨ta, hfa, hea, -⟩ := goodSnap_effRaw ha
  obtain ⟨tb, hfb, heb, -⟩ := goodSnap_effRaw hb
  rw [hfa, hfb] at h
  obtain rfl : ta = tb := by simpa using h
  rw [snapshotTime, snapshotTime, hea, heb]

theorem set_eq_self_of_getD {l : List α} {i : Nat} {a : α} (d : α)
    (hi : i < l.length) (h : l.getD i d = a) : l.set i a = l := by
  induction l generalizing i with
  | nil => simp at hi
  | cons b t ih =>
    cases i with
    | zero =>
      obtain rfl : b = a := h
      rfl
    | succ n =>
      simp only [List.set_cons_succ, List.cons.injEq, true_and]
      exact ih (by simpa using hi) (by simpa using h)

theorem getD_mem {l : List α} {i : Nat} (d : α) (hi : i < l.length) :
    l.getD i d ∈ l := by
  rw [List.getD_eq_getElem l d hi]
  exact List.getElem_mem hi

/-- The single-merge step preserving the C2 invariants. -/
theorem appendSnapshot_invariant (parse : String → Option Int)
    (h : List Snapshot) (snap : Snapshot)
    (hgoodh : ∀ e ∈ h, goodSnap parse e = true)
    (hgoods : goodSnap parse snap = true)
    (hsorted : (h.map (snapshotTime parse)).Pairwise (· ≤ ·))
    (hdedup : (h.map (fun s => s.fetched_at)).Nodup) :
    (∀ e ∈ appendSnapshot parse h snap, goodSnap parse e = true) ∧
    ((appendSnapshot parse h snap).map (snapshotTime parse)).Pairwise (· ≤ ·) ∧
    ((appendSnapshot parse h snap).map (fun s => s.fetched_at)).Nodup ∧
    (∀ x ∈ h.map (fun s => s.fetched_at),
      x ∈ (appendSnapshot parse h snap).map (fun s => s.fetched_at)) ∧
    snap.fetched_at ∈ (appendSnapshot parse h snap).map (fun s => s.fetched_at) := by
  cases hfind : findIndex (fun e => e.fetched_at == snap.fetched_at) h with
  | some i =>
    obtain ⟨hi, hp⟩ := of_findIndex_eq_some _ noSnap hfind
    have hkey : (h.getD i noSnap).fetched_at = snap.fetched_at := by simpa using hp
    have hmemi : h.getD i noSnap ∈ h := getD_mem noSnap hi
    have happ : appendSnapshot parse h snap = h.set i snap := by
      simp [appendSnapshot, hfind]
    have htime : snapshotTime parse (h.getD i noSnap) = snapshotTime parse snap :=
      fetched_at_congr_time (hgoodh _ hmemi) hgoods hkey
    have hmapt : (h.set i snap).map (snapshotTime parse) = h.map (snapshotTime parse) := by
      rw [List.map_set]
      refine set_eq_self_of_getD 0 (by simpa using hi) ?_
      rw [← htime]
      rw [List.getD_eq_getElem _ _ (by simpa using hi), List.getElem_map,
        List.getD_eq_getElem _ _ hi]
    have hmapk : (h.set i snap).map (fun s => s.fetched_at) =
        h.map (fun s => s.fetched_at) := by
      rw [List.map_set]
      refine set_eq_self_of_getD none (by simpa using hi) ?_
      rw [← hkey]
      rw [List.getD_eq_getElem _ _ (by simpa using hi), List.getElem_map,
        List.getD_eq_getElem _ _ hi]
    rw [happ]
    refine ⟨?_, ?_, ?_, ?_, ?_⟩
    · intro e he
      rcases List.mem_or_eq_of_mem_set he with he | rfl
      · exact hgoodh e he
      · exact hgoods
    · rw [hmapt]; exact hsorted
    · rw [hmapk]; exact hdedup
    · intro x hx; rw [hmapk]; exact hx
    · rw [hmapk, ← hkey]
      exact List.mem_map_of_mem _ hmemi
  | none =>
    have hnone : ∀ e ∈ h, e.fetched_at ≠ snap.fetched_at := by
      intro e he
      have := (findIndex_eq_none_iff _ h).mp hfind e he
      simpa using this
    have hgoodall : ∀ e ∈ h ++ [snap], goodSnap parse e = true := by
      intro e he
      rcases List.mem_append.mp he with he | he
      · exact hgoodh e he
      · obtain rfl : e = snap := by simpa using he
        exact hgoods
    have happ : appendSnapshot parse h snap =
        sortByKey (snapshotTime parse) (h ++ [snap]) := by
      rw [appendSnapshot, hfind, sortByKey]
      exact jsSort_eq_of_congr (fun s => goodSnap parse s = true)
        (fun x y hx hy => popupCmp_eq_of_good hx hy) _ hgoodall
    have hperm : List.Perm (appendSnapshot parse h snap) (h ++ [snap]) := by
      rw [happ]; exact sortByKey_perm _ _
    refine ⟨?_, ?_, ?_, ?_, ?_⟩
    · intro e he
      exact hgoodall e (hperm.mem_iff.mp he)
    · rw [happ]
      rw [List.pairwise_map]
      exact sortByKey_sorted (snapshotTime parse) (h ++ [snap])
    · refine (hperm.map (fun s => s.fetched_at)).symm.nodup ?_
      simp only [List.map_append, List.map_cons, List.map_nil]
      rw [List.nodup_append]
      refine ⟨hdedup, List.nodup_singleton _, ?_⟩
      intro x hx
      simp only [List.mem_map] at hx
      obtain ⟨e, he, rfl⟩ := hx
      simpa using fun h => (hnone e he h).elim
    · intro x hx
      rw [(hperm.map (fun s => s.fetched_at)).mem_iff]
      simp only [List.map_append, List.mem_append]
      exact Or.inl hx
    · rw [(hperm.map (fun s => s.fetched_at)).mem_iff]
      simp

/-- C2 counterexample: merging three snapshots, where the first and third
carry the identical falsy `fetched_at` value `""` but different dates, leaves
the history unsorted by effective timestamp: the third merge replaces the
first entry in place without re-sorting. -/
theorem C2_counterexample :
    [{ date := some "2020-01-01", fetched_at := some "", page_url := none,
       sketches := some [] },
     snapB,
     { date := some "2030-01-01", fetched_at := some "", page_url := none,
       sketches := some [] }].foldl (appendSnapshot demoParse) [] =
      [{ date := some "2030-01-01", fetched_at := some "", page_url := none,
         sketches := some [] }, snapB] ∧
    ¬ (([{ date := some "2030-01-01", fetched_at := some "", page_url := none,
           sketches := some [] }, snapB].map (snapshotTime demoParse)).Pairwise
        (· ≤ ·)) := by
  refine ⟨by decide, by decide⟩

/-- C2 (amended): for every sequence of merges, in any order, of snapshots
each carrying a non-empty `fetched_at` that parses as a timestamp, starting
from the empty history, the resulting history is sorted non-decreasing by
effective timestamp, contains no two entries with the same `fetched_at`,
and no entry is dropped except by the replace-on-duplicate rule: every
merged `fetched_at` value is still present. -/
theorem C2_sort_invariant (parse : String → Option Int) (merges : List Snapshot)
    (hgood : ∀ s ∈ merges, goodSnap parse s = true) :
    ((merges.foldl (appendSnapshot parse) []).map (snapshotTime parse)).Pairwise (· ≤ ·) ∧
    ((merges.foldl (appendSnapshot parse) []).map (fun s => s.fetched_at)).Nodup ∧
    ∀ s ∈ merges, s.fetched_at ∈
      (merges.foldl (appendSnapshot parse) []).map (fun s => s.fetched_at) := by
  suffices haux : ∀ (ms h : List Snapshot), (∀ s ∈ ms, goodSnap parse s = true) →
      (∀ e ∈ h, goodSnap parse e = true) →
      (h.map (snapshotTime parse)).Pairwise (· ≤ ·) →
      (h.map (fun s => s.fetched_at)).Nodup →
      (∀ e ∈ ms.foldl (appendSnapshot parse) h, goodSnap parse e = true) ∧
      ((ms.foldl (appendSnapshot parse) h).map (snapshotTime parse)).Pairwise (· ≤ ·) ∧
      ((ms.foldl (appendSnapshot parse) h).map (fun s => s.fetched_at)).Nodup ∧
      (∀ x ∈ h.map (fun s => s.fetched_at),
        x ∈ (ms.foldl (appendSnapshot parse) h).map (fun s => s.fetched_at)) ∧
      (∀ s ∈ ms, s.fetched_at ∈
        (ms.foldl (appendSnapshot parse) h).map (fun s => s.fetched_at)) by
    obtain ⟨-, h1, h2, -, h3⟩ := haux merges [] hgood (by simp) (by simp) (by simp)
    exact ⟨h1, h2, h3⟩
  intro ms
  induction ms with
  | nil =>
    intro h _ hgh hs hd
    exact ⟨hgh, hs, hd, fun x hx => hx, by simp⟩
  | cons m rest ih =>
    intro h hgms hgh hs hd
    have hgm : goodSnap parse m = true := hgms m (by simp)
    obtain ⟨hg1, hs1, hd1, hk1, hk2⟩ :=
      appendSnapshot_invariant parse h m hgh hgm hs hd
    obtain ⟨ih1, ih2, ih3, ih4, ih5⟩ :=
      ih (appendSnapshot parse h m) (fun s hs => hgms s (by simp [hs])) hg1 hs1 hd1
    refine ⟨ih1, ih2, ih3, ?_, ?_⟩
    · intro x hx
      exact ih4 x (hk1 x hx)
    · intro s hsm
      rcases List.mem_cons.mp hsm with rfl | hsm
      · exact ih4 _ hk2
      · exact ih5 s hsm

/-- C2 witness: three concrete merges arriving out of order. -/
theorem C2_sort_invariant_witness :
    (([snapB, snapA, snapB2].foldl (appendSnapshot demoParse) []).map
      (snapshotTime demoParse)).Pairwise (· ≤ ·) ∧
    (([snapB, snapA, snapB2].foldl (appendSnapshot demoParse) []).map
      (fun s => s.fetched_at)).Nodup := by
  have h := C2_sort_invariant demoParse [snapB, snapA, snapB2] (by decide)
  exact ⟨h.1, h.2.1⟩

/-! ### Association-list (`Map`) lemmas -/

theorem mapGet_mapSet [DecidableEq κ] (m : List (κ × V)) (k k' : κ) (v : V) :
    mapGet (mapSet m k v) k' = if k = k' then some v else mapGet m k' := by
  induction m with
  | nil =>
    by_cases h : k = k' <;> simp [mapSet, mapGet, h]
  | cons kv rest ih =>
    obtain ⟨k0, v0⟩ := kv
    by_cases h0 : k0 = k
    · subst h0
      by_cases h : k0 = k' <;> simp [mapSet, mapGet, h]
    · rw [mapSet, if_neg h0]
      by_cases h : k0 = k'
      · subst h
        have hne : ¬ k = k0 := fun hc => h0 hc.symm
        simp [mapGet, hne]
      · simp [mapGet, h, ih]

theorem mem_of_mapGet [DecidableEq κ] {m : List (κ × V)} {k : κ} {v : V}
    (h : mapGet m k = some v) : (k, v) ∈ m := by
  induction m with
  | nil => simp [mapGet] at h
  | cons kv rest ih =>
    obtain ⟨k0, v0⟩ := kv
    by_cases h0 : k0 = k
    · subst h0
      rw [mapGet, if_pos rfl] at h
      obtain rfl : v0 = v := by simpa using h
      simp
    · rw [mapGet, if_neg h0] at h
      simp [ih h]

theorem keys_mapSet_mem [DecidableEq κ] (m : List (κ × V)) (k k' : κ) (v : V) :
    k' ∈ (mapSet m k v).map Prod.fst ↔ k' = k ∨ k' ∈ m.map Prod.fst := by
  induction m with
  | nil => simp [mapSet]
  | cons kv rest ih =>
    obtain ⟨k0, v0⟩ := kv
    by_cases h0 : k0 = k
    · subst h0
      rw [mapSet, if_pos rfl]
      simp only [List.map_cons, List.mem_cons]
      tauto
    · rw [mapSet, if_neg h0]
      simp only [List.map_cons, List.mem_cons, ih]
      tauto

theorem nodup_keys_mapSet [DecidableEq κ] {m : List (κ × V)} (k : κ) (v : V)
    (h : (m.map Prod.fst).Nodup) : ((mapSet m k v).map Prod.fst).Nodup := by
  induction m with
  | nil => simp [mapSet]
  | cons kv rest ih =>
    obtain ⟨k0, v0⟩ := kv
    simp only [List.map_cons, List.nodup_cons] at h
    by_cases h0 : k0 = k
    · subst h0
      rw [mapSet, if_pos rfl]
      simp only [List.map_cons, List.nodup_cons]
      exact h
    · rw [mapSet, if_neg h0]
      simp only [List.map_cons, List.nodup_cons]
      refine ⟨?_, ih h.2⟩
      rw [keys_mapSet_mem]
      rintro (rfl | hc)
      · exact h0 rfl
      · exact h.1 hc

theorem mapGet_of_mem_nodup [DecidableEq κ] {m : List (κ × V)} {k : κ} {v : V}
    (hnd : (m.map Prod.fst).Nodup) (h : (k, v) ∈ m) : mapGet m k = some v := by
  induction m with
  | nil => simp at h
  | cons kv rest ih =>
    obtain ⟨k0, v0⟩ := kv
    simp only [List.map_cons, List.nodup_cons] at hnd
    rcases List.mem_cons.mp h with heq | hmem
    · have h1 : k = k0 := congrArg Prod.fst heq
      have h2 : v = v0 := congrArg Prod.snd heq
      subst h1
      subst h2
      rw [mapGet, if_pos rfl]
    · have hne : k0 ≠ k := by
        rintro rfl
        exact hnd.1 (by simpa using List.mem_map_of_mem Prod.fst hmem)
      rw [mapGet, if_neg hne]
      exact ih hnd.2 hmem

/-! ### Last-occurrence views of an id inside one snapshot -/

/-- The views value of the last record with finite id `k` in a sketch list
(matching `Map.prototype.set` overwrite semantics), `none` if there is none. -/
def lastViewsAux (k : Int) : List Sketch → Option Int
  | [] => none
  | sk :: rest =>
    match lastViewsAux k rest with
    | some v => some v
    | none => if sk.id = some k then some sk.views else none

/-- The views value the maps of the source record for id `k` in snapshot `s`. -/
def lastViewsIn (k : Int) (s : Snapshot) : Option Int :=
  lastViewsAux k (sketchesOf s)

/-- The effective views of id `k` in snapshot `s`: the stored value, else 0. -/
def viewsAt (k : Int) (s : Snapshot) : Int := (lastViewsIn k s).getD 0

theorem lastViewsAux_mem (k : Int) {l : List Sketch} {v : Int}
    (h : lastViewsAux k l = some v) :
    ∃ sk ∈ l, sk.id = some k ∧ sk.views = v := by
  induction l with
  | nil => simp [lastViewsAux] at h
  | cons sk rest ih =>
    rw [lastViewsAux] at h
    cases hrest : lastViewsAux k rest with
    | some w =>
      rw [hrest] at h
      obtain rfl : w = v := by simpa using h
      obtain ⟨sk2, h1, h2, h3⟩ := ih hrest
      exact ⟨sk2, by simp [h1], h2, h3⟩
    | none =>
      rw [hrest] at h
      by_cases hid : sk.id = some k
      · rw [if_pos hid] at h
        obtain rfl : sk.views = v := by simpa using h
        exact ⟨sk, by simp, hid, rfl⟩
      · rw [if_neg hid] at h
        simp at h

theorem lastViewsAux_eq_none_iff (k : Int) (l : List Sketch) :
    lastViewsAux k l = none ↔ ∀ sk ∈ l, sk.id ≠ some k := by
  induction l with
  | nil => simp [lastViewsAux]
  | cons sk rest ih =>
    rw [lastViewsAux]
    cases hrest : lastViewsAux k rest with
    | some v =>
      constructor
      · intro h; simp at h
      · intro h
        obtain ⟨sk2, hmem, hid, -⟩ := lastViewsAux_mem k hrest
        exact absurd hid (h sk2 (by simp [hmem]))
    | none =>
      by_cases hid : sk.id = some k
      · rw [if_pos hid]
        constructor
        · intro h; simp at h
        · intro h; exact absurd hid (h sk (by simp))
      · rw [if_neg hid]
        constructor
        · intro _ sk2 hmem
          rcases List.mem_cons.mp hmem with rfl | hmem2
          · exact hid
          · exact (ih.mp hrest) sk2 hmem2
        · intro _; rfl

theorem lastViewsAux_isSome_of_mem (k : Int) {l : List Sketch} {sk : Sketch}
    (hmem : sk ∈ l) (hid : sk.id = some k) :
    (lastViewsAux k l).isSome = true := by
  cases h : lastViewsAux k l with
  | some v => rfl
  | none => exact absurd hid ((lastViewsAux_eq_none_iff k l).mp h sk hmem)

/-- With ids deduplicated inside the list, the record found for `k` is the
unique one. -/
theorem lastViewsAux_eq_of_nodup (k : Int) {l : List Sketch} {sk : Sketch}
    (hnd : (l.filterMap (fun sk => sk.id)).Nodup)
    (hmem : sk ∈ l) (hid : sk.id = some k) :
    lastViewsAux k l = some sk.views := by
  induction l with
  | nil => simp at hmem
  | cons sk0 rest ih =>
    have hnd2 : (rest.filterMap (fun sk => sk.id)).Nodup := by
      cases hfm : sk0.id with
      | none => simpa [List.filterMap_cons, hfm] using hnd
      | some i0 =>
        simp only [List.filterMap_cons, hfm, List.nodup_cons] at hnd
        exact hnd.2
    rcases List.mem_cons.mp hmem with rfl | hmem2
    · have hnotin : ∀ sk2 ∈ rest, sk2.id ≠ some k := by
        intro sk2 h2 hc
        simp only [List.filterMap_cons, hid, List.nodup_cons] at hnd
        exact hnd.1 (List.mem_filterMap.mpr ⟨sk2, h2, hc⟩)
      rw [lastViewsAux, (lastViewsAux_eq_none_iff k rest).mpr hnotin, if_pos hid]
    · rw [lastViewsAux, ih hnd2 hmem2]

/-! ### The `previousById` map computes last-occurrence views -/

theorem mapGet_previousByIdOf (p : Snapshot) (k : Int) :
    mapGet (previousByIdOf p) k = lastViewsIn k p := by
  suffices haux : ∀ (l : List Sketch) (m : List (Int × Int)),
      mapGet (l.foldl prevByIdStep m) k =
        match lastViewsAux k l with
        | some v => some v
        | none => mapGet m k by
    rw [previousByIdOf, lastViewsIn, haux]
    cases lastViewsAux k (sketchesOf p) <;> rfl
  intro l
  induction l with
  | nil => intro m; rfl
  | cons sk rest ih =>
    intro m
    rw [List.foldl_cons, lastViewsAux, ih]
    cases hrest : lastViewsAux k rest with
    | some v => rfl
    | none =>
      show mapGet (prevByIdStep m sk) k =
        match (if sk.id = some k then some sk.views else none) with
        | some v => some v
        | none => mapGet m k
      cases hid : sk.id with
      | none =>
        rw [prevByIdStep, hid, if_neg (by simp)]
      | some k2 =>
        rw [prevByIdStep, hid, mapGet_mapSet]
        by_cases hk : k2 = k
        · subst hk
          rw [if_pos rfl, if_pos rfl]
        · rw [if_neg hk, if_neg (by simp [hk])]

/-! ### Folds that append conditionally are `filterMap`s -/

theorem foldl_optAppend_eq (f : β → Option γ) :
    ∀ (l : List β) (acc : List γ),
      l.foldl (optAppend f) acc = acc ++ l.filterMap f := by
  intro l
  induction l with
  | nil => intro acc; simp
  | cons b t ih =>
    intro acc
    rw [List.foldl_cons, List.filterMap_cons]
    cases hb : f b with
    | some c =>
      have hstep : optAppend f acc b = acc ++ [c] := by rw [optAppend, hb]
      rw [hstep, ih]
      simp
    | none =>
      have hstep : optAppend f acc b = acc := by rw [optAppend, hb]
      rw [hstep, ih]

theorem mem_computeSketchIncreasesFromSnapshots {p l : Snapshot} {e : Increase} :
    e ∈ computeSketchIncreasesFromSnapshots p l ↔
      ∃ sk ∈ sketchesOf l, incOf (previousByIdOf p) sk = some e := by
  have hdef : computeSketchIncreasesFromSnapshots p l =
      jsSort (fun a b => b.delta - a.delta)
        ((sketchesOf l).foldl (optAppend (incOf (previousByIdOf p))) []) := rfl
  rw [hdef, (jsSort_perm _ _).mem_iff, foldl_optAppend_eq]
  simp [List.mem_filterMap]

theorem mem_computeLatestSketchIncreasesFromSeries {series : List SeriesLine}
    {e : Increase} :
    e ∈ computeLatestSketchIncreasesFromSeries series ↔
      ∃ line ∈ series, incOfLine line = some e := by
  have hdef : computeLatestSketchIncreasesFromSeries series =
      jsSort (fun a b => b.delta - a.delta)
        (series.foldl (optAppend incOfLine) []) := rfl
  rw [hdef, (jsSort_perm _ _).mem_iff, foldl_optAppend_eq]
  simp [List.mem_filterMap]

/-! ### Characterizing the `bySketch` accumulation -/

/-- Every accumulator in the map is stored under its own id. -/
def WellKeyed (m : List (Int × SeriesAcc)) : Prop :=
  ∀ k acc, mapGet m k = some acc → acc.id = k

/-- Id `k` is observed somewhere in the history. -/
def occursIn (k : Int) (n : List Snapshot) : Prop :=
  ∃ s ∈ n, (lastViewsIn k s).isSome = true

/-- The last views value written into the points map of id `k` under label
`L` while folding the history from index `i`, if any. -/
def lastWriteIn (k : Int) (L : String) : Nat → List Snapshot → Option Int
  | _, [] => none
  | i, s :: rest =>
    match lastWriteIn k L (i + 1) rest with
    | some v => some v
    | none => if snapshotLabel s i = L then lastViewsIn k s else none

theorem addSketch_none (L : String) (m : List (Int × SeriesAcc)) (sk : Sketch)
    (hid : sk.id = none) : addSketch L m sk = m := by
  rw [addSketch, hid]

theorem addSketch_some (L : String) (m : List (Int × SeriesAcc)) (sk : Sketch)
    (k2 : Int) (hid : sk.id = some k2) :
    addSketch L m sk =
      mapSet m k2
        { (mapGet m k2).getD (freshAcc sk k2) with
          points := mapSet ((mapGet m k2).getD (freshAcc sk k2)).points L sk.views } := by
  rw [addSketch, hid]

theorem wellKeyed_addSketch (L : String) (m : List (Int × SeriesAcc)) (sk : Sketch)
    (h : WellKeyed m) : WellKeyed (addSketch L m sk) := by
  cases hid : sk.id with
  | none => rw [addSketch_none L m sk hid]; exact h
  | some k2 =>
    rw [addSketch_some L m sk k2 hid]
    intro k acc hacc
    rw [mapGet_mapSet] at hacc
    by_cases hk : k2 = k
    · subst hk
      have hacc2 :
          { (mapGet m k2).getD (freshAcc sk k2) with
            points := mapSet ((mapGet m k2).getD (freshAcc sk k2)).points L sk.views } =
            acc := by simpa using hacc
      subst hacc2
      cases hm : mapGet m k2 with
      | none => rfl
      | some a0 => exact h k2 a0 hm
    · rw [if_neg hk] at hacc
      exact h k acc hacc

theorem nodup_keys_addSketch (L : String) (m : List (Int × SeriesAcc)) (sk : Sketch)
    (h : (m.map Prod.fst).Nodup) : ((addSketch L m sk).map Prod.fst).Nodup := by
  cases hid : sk.id with
  | none => rw [addSketch_none L m sk hid]; exact h
  | some k2 => rw [addSketch_some L m sk k2 hid]; exact nodup_keys_mapSet _ _ h

theorem wellKeyed_foldl_addSketch (L : String) :
    ∀ (l : List Sketch) (m : List (Int × SeriesAcc)), WellKeyed m →
      WellKeyed (l.foldl (addSketch L) m) := by
  intro l
  induction l with
  | nil => intro m h; exact h
  | cons sk rest ih =>
    intro m h
    rw [List.foldl_cons]
    exact ih _ (wellKeyed_addSketch L m sk h)

theorem nodup_keys_foldl_addSketch (L : String) :
    ∀ (l : List Sketch) (m : List (Int × SeriesAcc)), (m.map Prod.fst).Nodup →
      ((l.foldl (addSketch L) m).map Prod.fst).Nodup := by
  intro l
  induction l with
  | nil => intro m h; exact h
  | cons sk rest ih =>
    intro m h
    rw [List.foldl_cons]
    exact ih _ (nodup_keys_addSketch L m sk h)

theorem wellKeyed_buildBySketchFrom :
    ∀ (n : List Snapshot) (i : Nat) (m : List (Int × SeriesAcc)), WellKeyed m →
      WellKeyed (buildBySketchFrom i m n) := by
  intro n
  induction n with
  | nil => intro i m h; exact h
  | cons s rest ih =>
    intro i m h
    rw [buildBySketchFrom]
    exact ih _ _ (wellKeyed_foldl_addSketch _ _ _ h)

theorem nodup_keys_buildBySketchFrom :
    ∀ (n : List Snapshot) (i : Nat) (m : List (Int × SeriesAcc)),
      (m.map Prod.fst).Nodup →
      ((buildBySketchFrom i m n).map Prod.fst).Nodup := by
  intro n
  induction n with
  | nil => intro i m h; exact h
  | cons s rest ih =>
    intro i m h
    rw [buildBySketchFrom]
    exact ih _ _ (nodup_keys_foldl_addSketch _ _ _ h)

/-- What one snapshot's sketch loop does to the entry of id `k`: nothing when
`k` is absent, otherwise a single overwrite of the points map at the
snapshot's label with the last-occurrence views. -/
theorem stepSnap_spec (L : String) (k : Int) :
    ∀ (l : List Sketch) (m : List (Int × SeriesAcc)), WellKeyed m →
      (lastViewsAux k l = none →
        mapGet (l.foldl (addSketch L) m) k = mapGet m k) ∧
      (∀ v, lastViewsAux k l = some v →
        ∃ acc, mapGet (l.foldl (addSketch L) m) k = some acc ∧ acc.id = k ∧
          ∀ L2, mapGet acc.points L2 =
            if L2 = L then some v
            else
              match mapGet m k with
              | some a0 => mapGet a0.points L2
              | none => none) := by
  intro l
  induction l with
  | nil =>
    intro m hwk
    refine ⟨fun _ => rfl, ?_⟩
    intro v hv
    simp [lastViewsAux] at hv
  | cons sk rest ih =>
    intro m hwk
    have hwk2 : WellKeyed (addSketch L m sk) := wellKeyed_addSketch L m sk hwk
    obtain ⟨ihn, ihs⟩ := ih (addSketch L m sk) hwk2
    constructor
    · intro hnone
      have hall := (lastViewsAux_eq_none_iff k (sk :: rest)).mp hnone
      have hid : ¬ (sk.id = some k) := hall sk (by simp)
      have hrest : lastViewsAux k rest = none :=
        (lastViewsAux_eq_none_iff k rest).mpr (fun sk2 h2 => hall sk2 (by simp [h2]))
      rw [List.foldl_cons, ihn hrest]
      cases hskid : sk.id with
      | none => rw [addSketch_none L m sk hskid]
      | some k2 =>
        have hk2 : k2 ≠ k := fun hc => hid (by rw [hskid, hc])
        rw [addSketch_some L m sk k2 hskid, mapGet_mapSet, if_neg hk2]
    · intro v hv
      cases hrest : lastViewsAux k rest with
      | some w =>
        have hw : w = v := by
          rw [lastViewsAux, hrest] at hv
          simpa using hv
        rw [hw] at hrest
        obtain ⟨acc, ha1, ha2, ha3⟩ := ihs v hrest
        rw [List.foldl_cons]
        refine ⟨acc, ha1, ha2, ?_⟩
        intro L2
        rw [ha3 L2]
        by_cases hL2 : L2 = L
        · rw [if_pos hL2, if_pos hL2]
        · rw [if_neg hL2, if_neg hL2]
          cases hskid : sk.id with
          | none => rw [addSketch_none L m sk hskid]
          | some k2 =>
            by_cases hk2 : k2 = k
            · subst hk2
              rw [addSketch_some L m sk k2 hskid]
              show (match mapGet (mapSet m k2
                  { (mapGet m k2).getD (freshAcc sk k2) with
                    points := mapSet ((mapGet m k2).getD (freshAcc sk k2)).points L sk.views }) k2 with
                | some a0 => mapGet a0.points L2
                | none => none) =
                (match mapGet m k2 with
                | some a0 => mapGet a0.points L2
                | none => none)
              rw [mapGet_mapSet, if_pos rfl]
              show mapGet (mapSet ((mapGet m k2).getD (freshAcc sk k2)).points L sk.views) L2 =
                (match mapGet m k2 with
                | some a0 => mapGet a0.points L2
                | none => none)
              rw [mapGet_mapSet, if_neg (fun hc => hL2 hc.symm)]
              cases hm : mapGet m k2 with
              | none => rfl
              | some a0 => rfl
            · rw [addSketch_some L m sk k2 hskid, mapGet_mapSet, if_neg hk2]
      | none =>
        rw [lastViewsAux, hrest] at hv
        have hv2 : (if sk.id = some k then some sk.views else none) = some v := hv
        have hid : sk.id = some k := by
          by_contra hc
          rw [if_neg hc] at hv2
          simp at hv2
        have hviews : sk.views = v := by
          rw [if_pos hid] at hv2
          simpa using hv2
        rw [List.foldl_cons, ihn hrest, addSketch_some L m sk k hid, mapGet_mapSet,
          if_pos rfl]
        refine ⟨_, rfl, ?_, ?_⟩
        · cases hm : mapGet m k with
          | none => rfl
          | some a0 => exact hwk k a0 hm
        · intro L2
          show mapGet (mapSet ((mapGet m k).getD (freshAcc sk k)).points L sk.views) L2 = _
          rw [mapGet_mapSet]
          by_cases hL2 : L2 = L
          · rw [if_pos hL2.symm, if_pos hL2, hviews]
          · rw [if_neg (fun hc => hL2 hc.symm), if_neg hL2]
            cases hm : mapGet m k with
            | none => rfl
            | some a0 => rfl

/-- What the whole `bySketch` accumulation does to the entry of id `k`. -/
theorem buildBySketchFrom_spec (k : Int) :
    ∀ (n : List Snapshot) (i : Nat) (m : List (Int × SeriesAcc)), WellKeyed m →
      (mapGet (buildBySketchFrom i m n) k = none ↔
        mapGet m k = none ∧ ∀ s ∈ n, lastViewsIn k s = none) ∧
      (∀ acc, mapGet (buildBySketchFrom i m n) k = some acc → acc.id = k ∧
        ∀ L, mapGet acc.points L =
          match lastWriteIn k L i n with
          | some v => some v
          | none =>
            match mapGet m k with
            | some a0 => mapGet a0.points L
            | none => none) := by
  intro n
  induction n with
  | nil =>
    intro i m hwk
    refine ⟨by simp [buildBySketchFrom], ?_⟩
    intro acc hacc
    refine ⟨hwk k acc hacc, ?_⟩
    intro L
    have hacc2 : mapGet m k = some acc := hacc
    show mapGet acc.points L =
      match mapGet m k with
      | some a0 => mapGet a0.points L
      | none => none
    rw [hacc2]
  | cons s rest ih =>
    intro i m hwk
    have hwk2 : WellKeyed ((sketchesOf s).foldl (addSketch (snapshotLabel s i)) m) :=
      wellKeyed_foldl_addSketch _ _ _ hwk
    obtain ⟨ihn, ihp⟩ := ih (i + 1) _ hwk2
    obtain ⟨stepn, steps⟩ := stepSnap_spec (snapshotLabel s i) k (sketchesOf s) m hwk
    constructor
    · rw [buildBySketchFrom, ihn]
      constructor
      · rintro ⟨h1, h2⟩
        cases hs : lastViewsIn k s with
        | some v =>
          obtain ⟨acc, hacc, -, -⟩ := steps v hs
          rw [hacc] at h1
          simp at h1
        | none =>
          rw [stepn hs] at h1
          refine ⟨h1, ?_⟩
          intro s2 hs2
          rcases List.mem_cons.mp hs2 with rfl | hs3
          · exact hs
          · exact h2 s2 hs3
      · rintro ⟨h1, h2⟩
        have hs : lastViewsIn k s = none := h2 s (by simp)
        rw [stepn hs]
        exact ⟨h1, fun s2 hs2 => h2 s2 (by simp [hs2])⟩
    · intro acc hacc
      rw [buildBySketchFrom] at hacc
      obtain ⟨hid, hpts⟩ := ihp acc hacc
      refine ⟨hid, ?_⟩
      intro L
      rw [hpts L, lastWriteIn]
      cases hlw : lastWriteIn k L (i + 1) rest with
      | some v => rfl
      | none =>
        show (match mapGet ((sketchesOf s).foldl (addSketch (snapshotLabel s i)) m) k with
          | some a0 => mapGet a0.points L
          | none => none) =
          match (if snapshotLabel s i = L then lastViewsIn k s else none) with
          | some v => some v
          | none =>
            match mapGet m k with
            | some a0 => mapGet a0.points L
            | none => none
        cases hs : lastViewsIn k s with
        | some w =>
          obtain ⟨acc2, hacc2, -, hpts2⟩ := steps w hs
          rw [hacc2]
          show mapGet acc2.points L = _
          rw [hpts2 L]
          by_cases hL : L = snapshotLabel s i
          · rw [if_pos hL, if_pos hL.symm]
          · rw [if_neg hL, if_neg (fun hc => hL hc.symm)]
        | none =>
          rw [stepn hs]
          by_cases hL : snapshotLabel s i = L
          · rw [if_pos hL]
          · rw [if_neg hL]

theorem wellKeyed_nil : WellKeyed [] := by
  intro k acc h
  simp [mapGet] at h

/-- Points of a built accumulator read back exactly the last writes. -/
theorem mapGet_buildBySketch_points {n : List Snapshot} {k : Int} {acc : SeriesAcc}
    (h : mapGet (buildBySketchFrom 0 [] n) k = some acc) :
    acc.id = k ∧ ∀ L, mapGet acc.points L = lastWriteIn k L 0 n := by
  obtain ⟨hid, hpts⟩ := (buildBySketchFrom_spec k n 0 [] wellKeyed_nil).2 acc h
  refine ⟨hid, ?_⟩
  intro L
  rw [hpts L]
  cases lastWriteIn k L 0 n <;> rfl

theorem mapGet_buildBySketch_none_iff (n : List Snapshot) (k : Int) :
    mapGet (buildBySketchFrom 0 [] n) k = none ↔ ∀ s ∈ n, lastViewsIn k s = none := by
  rw [(buildBySketchFrom_spec k n 0 [] wellKeyed_nil).1]
  simp [mapGet]

theorem mapGet_buildBySketch_isSome_iff (n : List Snapshot) (k : Int) :
    (mapGet (buildBySketchFrom 0 [] n) k).isSome = true ↔ occursIn k n := by
  constructor
  · intro h
    by_contra hocc
    have hnone : ∀ s ∈ n, lastViewsIn k s = none := by
      intro s hs
      cases hlv : lastViewsIn k s with
      | none => rfl
      | some v => exact absurd ⟨s, hs, by simp [hlv]⟩ hocc
    rw [(mapGet_buildBySketch_none_iff n k).mpr hnone] at h
    simp at h
  · rintro ⟨s, hs, hv⟩
    cases h : mapGet (buildBySketchFrom 0 [] n) k with
    | some acc => rfl
    | none =>
      have h2 := (mapGet_buildBySketch_none_iff n k).mp h s hs
      rw [h2] at hv
      simp at hv

/-! ### Labels and last writes -/

theorem labelsFrom_length : ∀ (n : List Snapshot) (i : Nat),
    (labelsFrom i n).length = n.length := by
  intro n
  induction n with
  | nil => intro i; rfl
  | cons s rest ih => intro i; simp [labelsFrom, ih]

theorem labelsFrom_getD : ∀ (n : List Snapshot) (i j : Nat), j < n.length →
    (labelsFrom i n).getD j "" = snapshotLabel (n.getD j noSnap) (i + j) := by
  intro n
  induction n with
  | nil => intro i j hj; simp at hj
  | cons s rest ih =>
    intro i j hj
    cases j with
    | zero => rfl
    | succ j2 =>
      rw [labelsFrom, List.getD_cons_succ, List.getD_cons_succ,
        ih (i + 1) j2 (by simpa using hj)]
      congr 1
      omega

theorem mem_labelsFrom {n : List Snapshot} {i j : Nat} (hj : j < n.length) :
    snapshotLabel (n.getD j noSnap) (i + j) ∈ labelsFrom i n := by
  rw [← labelsFrom_getD n i j hj]
  exact getD_mem "" (by rw [labelsFrom_length]; exact hj)

theorem lastWriteIn_eq_none (k : Int) (L : String) :
    ∀ (n : List Snapshot) (i : Nat), (∀ lbl ∈ labelsFrom i n, lbl ≠ L) →
      lastWriteIn k L i n = none := by
  intro n
  induction n with
  | nil => intro i _; rfl
  | cons s rest ih =>
    intro i h
    rw [lastWriteIn, ih (i + 1) (fun lbl hl => h lbl (by simp [labelsFrom, hl]))]
    rw [if_neg (h (snapshotLabel s i) (by simp [labelsFrom]))]

theorem lastWriteIn_at_label (k : Int) :
    ∀ (n : List Snapshot) (i j : Nat), (labelsFrom i n).Nodup → j < n.length →
      lastWriteIn k (snapshotLabel (n.getD j noSnap) (i + j)) i n =
        lastViewsIn k (n.getD j noSnap) := by
  intro n
  induction n with
  | nil => intro i j _ hj; simp at hj
  | cons s rest ih =>
    intro i j hnd hj
    rw [labelsFrom, List.nodup_cons] at hnd
    cases j with
    | zero =>
      simp only [List.getD_cons_zero, Nat.add_zero]
      rw [lastWriteIn,
        lastWriteIn_eq_none k _ rest (i + 1) (fun lbl hl => by
          intro hc
          exact hnd.1 (hc ▸ hl)),
        if_pos rfl]
    | succ j2 =>
      have hj2 : j2 < rest.length := by simpa using hj
      have hstep : i + (j2 + 1) = (i + 1) + j2 := by omega
      rw [List.getD_cons_succ, hstep, lastWriteIn, ih (i + 1) j2 hnd.2 hj2]
      cases hlv : lastViewsIn k (rest.getD j2 noSnap) with
      | some v => rfl
      | none =>
        rw [if_neg ?_]
        intro hc
        exact hnd.1 (hc ▸ mem_labelsFrom hj2)

theorem lastWriteIn_mem (k : Int) (L : String) :
    ∀ (n : List Snapshot) (i : Nat) (v : Int), lastWriteIn k L i n = some v →
      ∃ s ∈ n, lastViewsIn k s = some v := by
  intro n
  induction n with
  | nil => intro i v h; simp [lastWriteIn] at h
  | cons s rest ih =>
    intro i v h
    cases hrest : lastWriteIn k L (i + 1) rest with
    | some w =>
      have hw : w = v := by
        rw [lastWriteIn, hrest] at h
        simpa using h
      obtain ⟨s2, hs2, hv2⟩ := ih (i + 1) w hrest
      exact ⟨s2, by simp [hs2], hw ▸ hv2⟩
    | none =>
      rw [lastWriteIn, hrest] at h
      have h2 : (if snapshotLabel s i = L then lastViewsIn k s else none) = some v := h
      by_cases hL : snapshotLabel s i = L
      · rw [if_pos hL] at h2
        exact ⟨s, by simp, h2⟩
      · rw [if_neg hL] at h2
        simp at h2

/-! ### Built series: membership and point values -/

theorem finishLine_points_length (dbl : List (String × Option String))
    (labels : List String) (acc : SeriesAcc) :
    (finishLine dbl labels acc).points.length = labels.length := by
  simp [finishLine]

theorem finishLine_points_getD (dbl : List (String × Option String))
    (labels : List String) (acc : SeriesAcc) (j : Nat) (hj : j < labels.length) :
    (finishLine dbl labels acc).points.getD j noPoint =
      mkPoint dbl acc (labels.getD j "") := by
  show (labels.map (mkPoint dbl acc)).getD j noPoint = _
  rw [List.getD_eq_getElem _ _ (by simpa using hj), List.getElem_map,
    List.getD_eq_getElem _ _ hj]

theorem mem_rawLines {n : List Snapshot} {line : SeriesLine} :
    line ∈ rawLines n ↔
      ∃ k acc, mapGet (buildBySketchFrom 0 [] n) k = some acc ∧
        line = finishLine (dateByLabelFrom 0 [] n) (labelsOf n) acc := by
  rw [rawLines, List.mem_map]
  constructor
  · rintro ⟨⟨k, acc⟩, hmem, rfl⟩
    have hnd : ((buildBySketchFrom 0 [] n).map Prod.fst).Nodup :=
      nodup_keys_buildBySketchFrom n 0 [] (by simp)
    exact ⟨k, acc, mapGet_of_mem_nodup hnd hmem, rfl⟩
  · rintro ⟨k, acc, hget, rfl⟩
    exact ⟨(k, acc), mem_of_mapGet hget, rfl⟩

theorem mem_builtSeries {n : List Snapshot} {line : SeriesLine} :
    line ∈ builtSeries n ↔
      line ∈ rawLines n ∧ line.points.any (fun p => decide (0 < p.views)) = true := by
  rw [builtSeries, (sortByKey_perm _ _).mem_iff, List.mem_filter]

/-- The central value lemma: with pairwise-distinct labels, a line of the
unfiltered series has one point per history entry, reading back exactly the
per-snapshot views of its id (0 when absent). -/
theorem rawLines_point_views {n : List Snapshot} {line : SeriesLine}
    (hlab : (labelsOf n).Nodup) (hline : line ∈ rawLines n) :
    line.points.length = n.length ∧
    ∀ j, j < n.length →
      (line.points.getD j noPoint).views = viewsAt line.id (n.getD j noSnap) := by
  obtain ⟨k, acc, hget, rfl⟩ := mem_rawLines.mp hline
  obtain ⟨hid, hpts⟩ := mapGet_buildBySketch_points hget
  have hlen : (labelsOf n).length = n.length := labelsFrom_length n 0
  constructor
  · rw [finishLine_points_length, hlen]
  · intro j hj
    have hid2 : (finishLine (dateByLabelFrom 0 [] n) (labelsOf n) acc).id = k := hid
    rw [hid2, finishLine_points_getD _ _ _ j (by rw [hlen]; exact hj)]
    show (mapGet acc.points ((labelsOf n).getD j "")).getD 0 = _
    have hlabget : (labelsOf n).getD j "" = snapshotLabel (n.getD j noSnap) j := by
      have h2 := labelsFrom_getD n 0 j hj
      rwa [Nat.zero_add] at h2
    have hatl : lastWriteIn k (snapshotLabel (n.getD j noSnap) j) 0 n =
        lastViewsIn k (n.getD j noSnap) := by
      have h2 := lastWriteIn_at_label k n 0 j hlab hj
      rwa [Nat.zero_add] at h2
    rw [hlabget, hpts _, hatl]
    rfl

/-! ### C4: series alignment -/

theorem rawLines_points_length {n : List Snapshot} {line : SeriesLine}
    (hline : line ∈ rawLines n) : line.points.length = n.length := by
  obtain ⟨k, acc, -, rfl⟩ := mem_rawLines.mp hline
  rw [finishLine_points_length]
  exact labelsFrom_length n 0

def cexC4a : Snapshot :=
  { date := none, fetched_at := some "X", page_url := none, sketches := some [] }

def cexC4b : Snapshot :=
  { date := none, fetched_at := some "X", page_url := none,
    sketches := some [{ id := some 1, title := some "T", views := 5, url := none }] }

/-- C4 counterexample: two snapshots sharing the label `"X"`; the built
series for id 1 has a point with `views = 5` at snapshot index 0 even though
id 1 does not appear in that snapshot's sketches (the points map is keyed by
label, and the colliding label makes the lookup return the other snapshot's
value instead of the zero-fill). -/
theorem C4_counterexample :
    buildSeries demoParse [cexC4a, cexC4b] =
      [{ id := 1, title := "T", url := "",
         points := [{ timeLabel := "X", date := "X", views := 5 },
                    { timeLabel := "X", date := "X", views := 5 }],
         latestViews := 5 }] ∧
    normalizeHistory demoParse [cexC4a, cexC4b] = [cexC4a, cexC4b] ∧
    sketchesOf cexC4a = [] ∧
    (([{ timeLabel := "X", date := "X", views := 5 },
       { timeLabel := "X", date := "X", views := 5 }] : List SeriesPoint).getD 0
        noPoint).views ≠ 0 := by
  refine ⟨by decide, by decide, by decide, by decide⟩

/-- C4 (amended): every series produced by the series builder has
`points.length` equal to the history's length; and whenever the (normalized)
history has pairwise-distinct time labels, a built series has `views = 0` at
every snapshot index where its id does not appear in that snapshot's
sketches.  (With colliding labels the zero-fill can be violated, see the
counterexample.) -/
theorem C4_series_alignment (parse : String → Option Int) (history : List Snapshot)
    (n : List Snapshot) (line line2 : SeriesLine) (j : Nat)
    (hline : line ∈ buildSeries parse history)
    (hlab : (labelsOf n).Nodup)
    (hline2 : line2 ∈ builtSeries n)
    (hj : j < n.length)
    (habs : ∀ sk ∈ sketchesOf (n.getD j noSnap), sk.id ≠ some line2.id) :
    line.points.length = history.length ∧
    (line2.points.getD j noPoint).views = 0 := by
  constructor
  · have hraw : line ∈ rawLines (normalizeHistory parse history) :=
      (mem_builtSeries.mp hline).1
    rw [rawLines_points_length hraw]
    exact (sortByKey_perm _ _).length_eq
  · have hraw2 : line2 ∈ rawLines n := (mem_builtSeries.mp hline2).1
    rw [(rawLines_point_views hlab hraw2).2 j hj]
    have habs2 : lastViewsIn line2.id (n.getD j noSnap) = none :=
      (lastViewsAux_eq_none_iff _ _).mpr habs
    rw [viewsAt, habs2]
    rfl

def lineA : SeriesLine :=
  { id := 1, title := "A", url := "https://e/a",
    points := [{ timeLabel := "2020-01-01", date := "2020-01-01", views := 10 },
               { timeLabel := "2020-01-02", date := "2020-01-02", views := 12 }],
    latestViews := 12 }

def lineC : SeriesLine :=
  { id := 3, title := "C", url := "https://e/c",
    points := [{ timeLabel := "2020-01-01", date := "2020-01-01", views := 0 },
               { timeLabel := "2020-01-02", date := "2020-01-02", views := 3 }],
    latestViews := 3 }

/-- C4 witness: the concrete two-snapshot history with distinct labels. -/
theorem C4_series_alignment_witness :
    lineA.points.length = ([prevC9, latestC9] : List Snapshot).length ∧
    (lineC.points.getD 0 noPoint).views = 0 :=
  C4_series_alignment demoParse [prevC9, latestC9] [prevC9, latestC9] lineA lineC 0
    (by decide) (by decide) (by decide) (by decide) (by decide)

/-! ### C5: the zero-filter -/

/-- C5: an entity whose views value is 0 in every snapshot where it appears
is excluded from the built series set; and a series is retained if and only
if at least one of its points has `views > 0`. -/
theorem C5_zero_filter (parse : String → Option Int) (history : List Snapshot)
    (k : Int) (n : List Snapshot) (line : SeriesLine)
    (hzero : ∀ s ∈ history, ∀ sk ∈ sketchesOf s, sk.id = some k → sk.views = 0) :
    (∀ l ∈ buildSeries parse history, l.id ≠ k) ∧
    (line ∈ builtSeries n ↔
      line ∈ rawLines n ∧ line.points.any (fun p => decide (0 < p.views)) = true) := by
  refine ⟨?_, mem_builtSeries⟩
  intro l hl hlk
  obtain ⟨hraw, hany⟩ := mem_builtSeries.mp hl
  obtain ⟨k2, acc, hget, hfin⟩ := mem_rawLines.mp hraw
  have hid : l.id = k2 := by
    rw [hfin]
    exact (mapGet_buildBySketch_points hget).1
  obtain rfl : k2 = k := by rw [← hid, hlk]
  obtain ⟨p, hp, hpv⟩ := List.any_eq_true.mp hany
  rw [hfin] at hp
  have hp2 : p ∈ (labelsOf (normalizeHistory parse history)).map
      (mkPoint (dateByLabelFrom 0 [] (normalizeHistory parse history)) acc) := hp
  obtain ⟨L, hL, rfl⟩ := List.mem_map.mp hp2
  have hpv2 : 0 < (mapGet acc.points L).getD 0 := by simpa [mkPoint] using hpv
  cases hm : mapGet acc.points L with
  | none => rw [hm] at hpv2; simp at hpv2
  | some v =>
    rw [hm] at hpv2
    have hv : 0 < v := by simpa using hpv2
    have hlw : lastWriteIn k2 L 0 (normalizeHistory parse history) = some v := by
      rw [← (mapGet_buildBySketch_points hget).2 L, hm]
    obtain ⟨s, hs, hlast⟩ := lastWriteIn_mem k2 L _ 0 v hlw
    obtain ⟨sk, hskmem, hskid, hskviews⟩ := lastViewsAux_mem k2 hlast
    have hsh : s ∈ history := (sortByKey_perm _ _).mem_iff.mp hs
    have : sk.views = 0 := hzero s hsh sk hskmem hskid
    omega

def zeroSnap : Snapshot :=
  { date := some "2020-01-01", fetched_at := some "2020-01-01", page_url := none,
    sketches := some [{ id := some 5, title := some "Z", views := 0, url := none }] }

/-- C5 witness: an entity observed once with zero views is excluded. -/
theorem C5_zero_filter_witness :
    (∀ l ∈ buildSeries demoParse [zeroSnap], l.id ≠ 5) ∧
    (lineA ∈ builtSeries [] ↔
      lineA ∈ rawLines [] ∧ lineA.points.any (fun p => decide (0 < p.views)) = true) :=
  C5_zero_filter demoParse [zeroSnap] 5 [] lineA (by decide)

/-! ### C10: records with non-finite ids are skipped -/

/-- Erase the sketch records whose id does not coerce to a finite number. -/
def dropSnap (s : Snapshot) : Snapshot :=
  { s with sketches := s.sketches.map (fun l => l.filter (fun sk => sk.id.isSome)) }

theorem sketchesOf_dropSnap (s : Snapshot) :
    sketchesOf (dropSnap s) = (sketchesOf s).filter (fun sk => sk.id.isSome) := by
  cases hs : s.sketches with
  | none => simp [dropSnap, sketchesOf, hs]
  | some l => simp [dropSnap, sketchesOf, hs]

theorem foldl_filter_id {σ : Type} (f : σ → Sketch → σ)
    (hf : ∀ (m : σ) (sk : Sketch), sk.id = none → f m sk = m) :
    ∀ (l : List Sketch) (m : σ),
      (l.filter (fun sk => sk.id.isSome)).foldl f m = l.foldl f m := by
  intro l
  induction l with
  | nil => intro m; rfl
  | cons sk rest ih =>
    intro m
    cases hid : sk.id with
    | none =>
      rw [List.filter_cons, if_neg (by simp [hid]), ih, List.foldl_cons, hf m sk hid]
    | some k =>
      rw [List.filter_cons, if_pos (by simp [hid]), List.foldl_cons, List.foldl_cons, ih]

theorem buildBySketchFrom_dropSnap :
    ∀ (n : List Snapshot) (i : Nat) (m : List (Int × SeriesAcc)),
      buildBySketchFrom i m (n.map dropSnap) = buildBySketchFrom i m n := by
  intro n
  induction n with
  | nil => intro i m; rfl
  | cons s rest ih =>
    intro i m
    rw [List.map_cons, buildBySketchFrom, buildBySketchFrom]
    have hlbl : snapshotLabel (dropSnap s) i = snapshotLabel s i := rfl
    rw [hlbl, sketchesOf_dropSnap,
      foldl_filter_id (addSketch (snapshotLabel s i))
        (fun m2 sk hid => addSketch_none _ m2 sk hid), ih]

theorem labelsFrom_dropSnap :
    ∀ (n : List Snapshot) (i : Nat), labelsFrom i (n.map dropSnap) = labelsFrom i n := by
  intro n
  induction n with
  | nil => intro i; rfl
  | cons s rest ih =>
    intro i
    rw [List.map_cons, labelsFrom, labelsFrom, ih]
    rfl

theorem dateByLabelFrom_dropSnap :
    ∀ (n : List Snapshot) (i : Nat) (m : List (String × Option String)),
      dateByLabelFrom i m (n.map dropSnap) = dateByLabelFrom i m n := by
  intro n
  induction n with
  | nil => intro i m; rfl
  | cons s rest ih =>
    intro i m
    rw [List.map_cons, dateByLabelFrom, dateByLabelFrom, ih]
    rfl

theorem rawLines_dropSnap (n : List Snapshot) :
    rawLines (n.map dropSnap) = rawLines n := by
  rw [rawLines, rawLines, buildBySketchFrom_dropSnap, dateByLabelFrom_dropSnap]
  show (buildBySketchFrom 0 [] n).map
      (fun kv => finishLine (dateByLabelFrom 0 [] n) (labelsFrom 0 (n.map dropSnap)) kv.2) = _
  rw [labelsFrom_dropSnap]
  rfl

theorem builtSeries_dropSnap (n : List Snapshot) :
    builtSeries (n.map dropSnap) = builtSeries n := by
  rw [builtSeries, builtSeries, rawLines_dropSnap]

theorem buildSeries_dropSnap (parse : String → Option Int) (history : List Snapshot) :
    buildSeries parse (history.map dropSnap) = buildSeries parse history := by
  rw [buildSeries, buildSeries, normalizeHistory, normalizeHistory, sortByKey, sortByKey,
    jsSort_map dropSnap _ _ (fun x y => rfl)]
  exact builtSeries_dropSnap _

theorem incOf_none (pby : List (Int × Int)) (sk : Sketch) (hid : sk.id = none) :
    incOf pby sk = none := by
  rw [incOf, hid]

theorem previousByIdOf_dropSnap (p : Snapshot) :
    previousByIdOf (dropSnap p) = previousByIdOf p := by
  rw [previousByIdOf, previousByIdOf, sketchesOf_dropSnap,
    foldl_filter_id prevByIdStep (fun m sk hid => by rw [prevByIdStep, hid])]

theorem computeSketchIncreases_dropSnap (p l : Snapshot) :
    computeSketchIncreasesFromSnapshots (dropSnap p) (dropSnap l) =
      computeSketchIncreasesFromSnapshots p l := by
  have hdef1 : computeSketchIncreasesFromSnapshots (dropSnap p) (dropSnap l) =
      jsSort (fun a b => b.delta - a.delta)
        ((sketchesOf (dropSnap l)).foldl
          (optAppend (incOf (previousByIdOf (dropSnap p)))) []) := rfl
  have hdef2 : computeSketchIncreasesFromSnapshots p l =
      jsSort (fun a b => b.delta - a.delta)
        ((sketchesOf l).foldl (optAppend (incOf (previousByIdOf p))) []) := rfl
  rw [hdef1, hdef2, previousByIdOf_dropSnap, sketchesOf_dropSnap,
    foldl_filter_id (optAppend (incOf (previousByIdOf p)))
      (fun acc sk hid => by rw [optAppend, incOf_none _ sk hid])]

theorem incOf_id {pby : List (Int × Int)} {sk : Sketch} {e : Increase}
    (h : incOf pby sk = some e) : sk.id = some e.id := by
  cases hid : sk.id with
  | none => rw [incOf_none pby sk hid] at h; simp at h
  | some k =>
    rw [incOf, hid] at h
    have h2 : (if 0 < sk.views - (mapGet pby k).getD 0 then
        some ({ id := k, title := jsTitle sk.title k, url := sk.url.getD "",
                delta := sk.views - (mapGet pby k).getD 0 } : Increase)
      else none) = some e := h
    by_cases hd : 0 < sk.views - (mapGet pby k).getD 0
    · rw [if_pos hd] at h2
      have he := Option.some.inj h2
      rw [← he]
    · rw [if_neg hd] at h2
      simp at h2

theorem buildSeries_origin (parse : String → Option Int) (history : List Snapshot)
    (line : SeriesLine) (h : line ∈ buildSeries parse history) :
    ∃ s ∈ history, ∃ sk ∈ sketchesOf s, sk.id = some line.id := by
  obtain ⟨hraw, -⟩ := mem_builtSeries.mp h
  obtain ⟨k, acc, hget, rfl⟩ := mem_rawLines.mp hraw
  have hid : (finishLine (dateByLabelFrom 0 [] (normalizeHistory parse history))
      (labelsOf (normalizeHistory parse history)) acc).id = k :=
    (mapGet_buildBySketch_points hget).1
  have hiss : (mapGet (buildBySketchFrom 0 [] (normalizeHistory parse history)) k).isSome
      = true := by rw [hget]; rfl
  obtain ⟨s, hs, hv⟩ := (mapGet_buildBySketch_isSome_iff _ k).mp hiss
  obtain ⟨v, hv2⟩ := Option.isSome_iff_exists.mp hv
  obtain ⟨sk, hskmem, hskid, -⟩ := lastViewsAux_mem k hv2
  have hsh : s ∈ history := (sortByKey_perm _ _).mem_iff.mp hs
  exact ⟨s, hsh, sk, hskmem, by rw [hskid, hid]⟩

/-- C10: records whose id does not coerce to a finite number are silently
skipped by the series builder and by the per-entity increase computation —
erasing them changes neither output — and every derived series or increase
entry takes its id from an actual finite-id record. -/
theorem C10_nonfinite_ids (parse : String → Option Int) (history : List Snapshot)
    (p l : Snapshot) (e : Increase) (line : SeriesLine)
    (he : e ∈ computeSketchIncreasesFromSnapshots p l)
    (hline : line ∈ buildSeries parse history) :
    buildSeries parse (history.map dropSnap) = buildSeries parse history ∧
    computeSketchIncreasesFromSnapshots (dropSnap p) (dropSnap l) =
      computeSketchIncreasesFromSnapshots p l ∧
    (∃ sk ∈ sketchesOf l, sk.id = some e.id) ∧
    (∃ s ∈ history, ∃ sk ∈ sketchesOf s, sk.id = some line.id) := by
  refine ⟨buildSeries_dropSnap parse history, computeSketchIncreases_dropSnap p l, ?_,
    buildSeries_origin parse history line hline⟩
  obtain ⟨sk, hmem, hinc⟩ := mem_computeSketchIncreasesFromSnapshots.mp he
  exact ⟨sk, hmem, incOf_id hinc⟩

/-- C10 witness: the concrete history `[prevC9, latestC9]`, including one
erased non-finite-id record to exercise the invariance. -/
theorem C10_nonfinite_ids_witness :
    buildSeries demoParse ([prevC9, latestC9].map dropSnap) =
      buildSeries demoParse [prevC9, latestC9] ∧
    computeSketchIncreasesFromSnapshots (dropSnap prevC9) (dropSnap latestC9) =
      computeSketchIncreasesFromSnapshots prevC9 latestC9 ∧
    (∃ sk ∈ sketchesOf latestC9, sk.id =
      some ({ id := 3, title := "C", url := "https://e/c", delta := 3 } : Increase).id) ∧
    (∃ s ∈ [prevC9, latestC9], ∃ sk ∈ sketchesOf s, sk.id = some lineA.id) := by
  have h := C10_nonfinite_ids demoParse [prevC9, latestC9] prevC9 latestC9
    { id := 3, title := "C", url := "https://e/c", delta := 3 } lineA
    (by decide) (by decide)
  exact ⟨h.1, h.2.1, h.2.2.1, h.2.2.2⟩

/-! ### C3: equivalence of the two increase computations -/

theorem incOf_spec {pby : List (Int × Int)} {sk : Sketch} {e : Increase}
    (h : incOf pby sk = some e) :
    ∃ k, sk.id = some k ∧ e.id = k ∧
      e.delta = sk.views - (mapGet pby k).getD 0 ∧ 0 < e.delta := by
  cases hid : sk.id with
  | none => rw [incOf_none pby sk hid] at h; simp at h
  | some k =>
    rw [incOf, hid] at h
    have h2 : (if 0 < sk.views - (mapGet pby k).getD 0 then
        some ({ id := k, title := jsTitle sk.title k, url := sk.url.getD "",
                delta := sk.views - (mapGet pby k).getD 0 } : Increase)
      else none) = some e := h
    by_cases hd : 0 < sk.views - (mapGet pby k).getD 0
    · rw [if_pos hd] at h2
      have he := Option.some.inj h2
      refine ⟨k, rfl, ?_, ?_, ?_⟩
      · rw [← he]
      · rw [← he]
      · rw [← he]; exact hd
    · rw [if_neg hd] at h2
      simp at h2

theorem incOf_eq_some {pby : List (Int × Int)} {sk : Sketch} {k : Int}
    (hid : sk.id = some k) (hd : 0 < sk.views - (mapGet pby k).getD 0) :
    incOf pby sk =
      some { id := k, title := jsTitle sk.title k, url := sk.url.getD "",
             delta := sk.views - (mapGet pby k).getD 0 } := by
  simp only [incOf, hid]
  rw [if_pos hd]

theorem incOfLine_spec {line : SeriesLine} {e : Increase}
    (h : incOfLine line = some e) :
    2 ≤ line.points.length ∧ e.id = line.id ∧
      e.delta = (line.points.getD (line.points.length - 1) noPoint).views -
        (line.points.getD (line.points.length - 2) noPoint).views ∧ 0 < e.delta := by
  rw [incOfLine] at h
  by_cases hlen : line.points.length < 2
  · rw [if_pos hlen] at h; simp at h
  · rw [if_neg hlen] at h
    by_cases hd : 0 < (line.points.getD (line.points.length - 1) noPoint).views -
        (line.points.getD (line.points.length - 2) noPoint).views
    · rw [if_pos hd] at h
      have he := Option.some.inj h
      refine ⟨by omega, ?_, ?_, ?_⟩
      · rw [← he]
      · rw [← he]
      · rw [← he]; exact hd
    · rw [if_neg hd] at h
      simp at h

theorem incOfLine_eq_some {line : SeriesLine} (hlen : 2 ≤ line.points.length)
    (hd : 0 < (line.points.getD (line.points.length - 1) noPoint).views -
      (line.points.getD (line.points.length - 2) noPoint).views) :
    incOfLine line =
      some { id := line.id,
             title := orFalsy (some line.title) ("Sketch " ++ toString line.id),
             url := line.url,
             delta := (line.points.getD (line.points.length - 1) noPoint).views -
               (line.points.getD (line.points.length - 2) noPoint).views } := by
  rw [incOfLine, if_neg (by omega), if_pos hd]

theorem viewsAt_nonneg {k : Int} {s : Snapshot}
    (hv : ∀ sk ∈ sketchesOf s, 0 ≤ sk.views) : 0 ≤ viewsAt k s := by
  cases h : lastViewsIn k s with
  | none => simp [viewsAt, h]
  | some v =>
    obtain ⟨sk, hm, -, hveq⟩ := lastViewsAux_mem k h
    have h2 := hv sk hm
    rw [hveq] at h2
    simpa [viewsAt, h] using h2

/-- The popup path: the id-delta pairs are exactly the positive per-id deltas
of the latest snapshot against the previous one. -/
theorem popup_pairs_iff (prev latest : Snapshot) (k d : Int)
    (hids : ((sketchesOf latest).filterMap (fun sk => sk.id)).Nodup) :
    (k, d) ∈ (computeSketchIncreasesFromSnapshots prev latest).map
        (fun e => (e.id, e.delta)) ↔
      ((lastViewsIn k latest).isSome = true ∧
        d = viewsAt k latest - viewsAt k prev ∧ 0 < d) := by
  rw [List.mem_map]
  constructor
  · rintro ⟨e, he, hpair⟩
    have hk : e.id = k := congrArg Prod.fst hpair
    have hd2 : e.delta = d := congrArg Prod.snd hpair
    obtain ⟨sk, hskmem, hinc⟩ := mem_computeSketchIncreasesFromSnapshots.mp he
    obtain ⟨k2, hskid, heid, hedelta, hpos⟩ := incOf_spec hinc
    have hk2eq : k2 = k := by rw [← heid, hk]
    rw [hk2eq] at hskid hedelta
    refine ⟨lastViewsAux_isSome_of_mem k hskmem hskid, ?_, by omega⟩
    have hlva : lastViewsAux k (sketchesOf latest) = some sk.views :=
      lastViewsAux_eq_of_nodup k hids hskmem hskid
    have hvl : viewsAt k latest = sk.views := by
      rw [viewsAt, lastViewsIn, hlva]
      rfl
    have hvp : viewsAt k prev = (mapGet (previousByIdOf prev) k).getD 0 := by
      rw [viewsAt, mapGet_previousByIdOf]
    rw [← hd2, hedelta, hvl, hvp]
  · rintro ⟨hocc, hd2, hpos⟩
    obtain ⟨v, hv⟩ := Option.isSome_iff_exists.mp hocc
    obtain ⟨sk, hskmem, hskid, hskviews⟩ := lastViewsAux_mem k hv
    have hvl : viewsAt k latest = sk.views := by
      rw [viewsAt, lastViewsIn, lastViewsAux_eq_of_nodup k hids hskmem hskid]
      rfl
    have hvp : (mapGet (previousByIdOf prev) k).getD 0 = viewsAt k prev := by
      rw [viewsAt, mapGet_previousByIdOf]
    have hdpos : 0 < sk.views - (mapGet (previousByIdOf prev) k).getD 0 := by
      rw [hvp]
      omega
    refine ⟨{ id := k, title := jsTitle sk.title k, url := sk.url.getD "",
              delta := sk.views - (mapGet (previousByIdOf prev) k).getD 0 },
      mem_computeSketchIncreasesFromSnapshots.mpr ⟨sk, hskmem, incOf_eq_some hskid hdpos⟩,
      ?_⟩
    show (k, sk.views - (mapGet (previousByIdOf prev) k).getD 0) = (k, d)
    have hdval : sk.views - (mapGet (previousByIdOf prev) k).getD 0 = d := by
      rw [hvp]
      omega
    rw [hdval]

/-- The series path: the id-delta pairs are exactly the positive per-id
deltas of the last two aligned points. -/
theorem series_pairs_iff (n : List Snapshot) (k d : Int)
    (h2 : 2 ≤ n.length) (hlab : (labelsOf n).Nodup)
    (hviews : ∀ s ∈ n, ∀ sk ∈ sketchesOf s, 0 ≤ sk.views) :
    (k, d) ∈ (computeLatestSketchIncreasesFromSeries (builtSeries n)).map
        (fun e => (e.id, e.delta)) ↔
      (occursIn k n ∧
        d = viewsAt k (n.getD (n.length - 1) noSnap) -
          viewsAt k (n.getD (n.length - 2) noSnap) ∧ 0 < d) := by
  rw [List.mem_map]
  constructor
  · rintro ⟨e, he, hpair⟩
    have hk : e.id = k := congrArg Prod.fst hpair
    have hd2 : e.delta = d := congrArg Prod.snd hpair
    obtain ⟨line, hline, hinc⟩ := mem_computeLatestSketchIncreasesFromSeries.mp he
    obtain ⟨hlen, heid, hedelta, hpos⟩ := incOfLine_spec hinc
    obtain ⟨hraw, -⟩ := mem_builtSeries.mp hline
    obtain ⟨hplen, hpview⟩ := rawLines_point_views hlab hraw
    have hlid : line.id = k := by rw [← heid, hk]
    obtain ⟨k2, acc, hget, hfin⟩ := mem_rawLines.mp hraw
    have hk2 : line.id = k2 := by
      rw [hfin]
      exact (mapGet_buildBySketch_points hget).1
    have hocc : occursIn k n := by
      rw [← hlid, hk2]
      exact (mapGet_buildBySketch_isSome_iff n k2).mp (by rw [hget]; rfl)
    refine ⟨hocc, ?_, by omega⟩
    have hv1 := hpview (n.length - 1) (by omega)
    have hv2 := hpview (n.length - 2) (by omega)
    rw [← hd2, hedelta, hplen, hv1, hv2, hlid]
  · rintro ⟨hocc, hd2, hpos⟩
    have hiss : (mapGet (buildBySketchFrom 0 [] n) k).isSome = true :=
      (mapGet_buildBySketch_isSome_iff n k).mpr hocc
    obtain ⟨acc, hget⟩ := Option.isSome_iff_exists.mp hiss
    have hraw : finishLine (dateByLabelFrom 0 [] n) (labelsOf n) acc ∈ rawLines n :=
      mem_rawLines.mpr ⟨k, acc, hget, rfl⟩
    have hlid : (finishLine (dateByLabelFrom 0 [] n) (labelsOf n) acc).id = k :=
      (mapGet_buildBySketch_points hget).1
    generalize hgen : finishLine (dateByLabelFrom 0 [] n) (labelsOf n) acc = line
      at hraw hlid
    obtain ⟨hplen, hpview⟩ := rawLines_point_views hlab hraw
    have hv1 := hpview (n.length - 1) (by omega)
    have hv2 := hpview (n.length - 2) (by omega)
    have hprevmem : n.getD (n.length - 2) noSnap ∈ n := getD_mem _ (by omega)
    have hvp0 : 0 ≤ viewsAt k (n.getD (n.length - 2) noSnap) :=
      viewsAt_nonneg (hviews _ hprevmem)
    have hvl0 : 0 < viewsAt k (n.getD (n.length - 1) noSnap) := by omega
    have hlastmem : line.points.getD (n.length - 1) noPoint ∈ line.points :=
      getD_mem _ (by rw [hplen]; omega)
    have hany : line.points.any (fun p => decide (0 < p.views)) = true := by
      refine List.any_eq_true.mpr ⟨_, hlastmem, ?_⟩
      refine decide_eq_true ?_
      rw [hv1, hlid]
      exact hvl0
    have hmem : line ∈ builtSeries n := mem_builtSeries.mpr ⟨hraw, hany⟩
    have hlen2 : 2 ≤ line.points.length := by omega
    have hd3 : 0 < (line.points.getD (line.points.length - 1) noPoint).views -
        (line.points.getD (line.points.length - 2) noPoint).views := by
      rw [hplen, hv1, hv2, hlid]
      omega
    refine ⟨_, mem_computeLatestSketchIncreasesFromSeries.mpr
      ⟨line, hmem, incOfLine_eq_some hlen2 hd3⟩, ?_⟩
    show (line.id, (line.points.getD (line.points.length - 1) noPoint).views -
      (line.points.getD (line.points.length - 2) noPoint).views) = (k, d)
    rw [hplen, hv1, hv2, hlid, ← hd2]

def cexC3a : Snapshot :=
  { date := some "2020-01-01", fetched_at := some "2020-01-01", page_url := none,
    sketches := some [{ id := some 1, title := some "Old", views := 5, url := none }] }

def cexC3b : Snapshot :=
  { date := some "2020-01-02", fetched_at := some "2020-01-02", page_url := none,
    sketches := some [{ id := some 1, title := some "New", views := 9, url := none }] }

/-- C3 counterexample: the two computation paths do not produce the same
result set of `{id, title, url, delta}` entries when an entity's title
changes between captures: the raw-snapshot path takes the title from the
latest snapshot, the series path from the entity's first appearance. -/
theorem C3_counterexample :
    normalizeHistory demoParse [cexC3a, cexC3b] = [cexC3a, cexC3b] ∧
    computeSketchIncreasesFromSnapshots cexC3a cexC3b =
      [{ id := 1, title := "New", url := "", delta := 4 }] ∧
    computeLatestSketchIncreasesFromSeries (builtSeries [cexC3a, cexC3b]) =
      [{ id := 1, title := "Old", url := "", delta := 4 }] ∧
    computeSketchIncreasesFromSnapshots cexC3a cexC3b ≠
      computeLatestSketchIncreasesFromSeries (builtSeries [cexC3a, cexC3b]) := by
  refine ⟨by decide, by decide, by decide, by decide⟩

/-- C3 (amended): for a history of length at least 2 with pairwise-distinct
time labels, deduplicated ids in the latest snapshot and non-negative view
counts, the raw-snapshot computation over the last two snapshots and the
series computation over the built series produce the same set of
`{id, delta}` pairs (all with `delta > 0`).  The `title`/`url` components may
differ: the raw path reports the latest snapshot's metadata, the series path
the first-appearance metadata. -/
theorem C3_increase_equivalence (n : List Snapshot) (k d : Int)
    (h2 : 2 ≤ n.length)
    (hlab : (labelsOf n).Nodup)
    (hids : ((sketchesOf (n.getD (n.length - 1) noSnap)).filterMap
      (fun sk => sk.id)).Nodup)
    (hviews : ∀ s ∈ n, ∀ sk ∈ sketchesOf s, 0 ≤ sk.views) :
    (k, d) ∈ (computeSketchIncreasesFromSnapshots (n.getD (n.length - 2) noSnap)
        (n.getD (n.length - 1) noSnap)).map (fun e => (e.id, e.delta)) ↔
      (k, d) ∈ (computeLatestSketchIncreasesFromSeries (builtSeries n)).map
        (fun e => (e.id, e.delta)) := by
  rw [popup_pairs_iff _ _ k d hids, series_pairs_iff n k d h2 hlab hviews]
  have hlatestmem : n.getD (n.length - 1) noSnap ∈ n := getD_mem _ (by omega)
  have hprevmem : n.getD (n.length - 2) noSnap ∈ n := getD_mem _ (by omega)
  constructor
  · rintro ⟨hocc, hd2, hpos⟩
    exact ⟨⟨_, hlatestmem, hocc⟩, hd2, hpos⟩
  · rintro ⟨hocc, hd2, hpos⟩
    refine ⟨?_, hd2, hpos⟩
    have hvp : 0 ≤ viewsAt k (n.getD (n.length - 2) noSnap) :=
      viewsAt_nonneg (hviews _ hprevmem)
    have hvl : 0 < viewsAt k (n.getD (n.length - 1) noSnap) := by omega
    cases hl : lastViewsIn k (n.getD (n.length - 1) noSnap) with
    | some v => rfl
    | none =>
      rw [viewsAt, hl] at hvl
      simp at hvl

/-- C3 witness: the concrete two-snapshot history, id 3 with delta 3. -/
theorem C3_increase_equivalence_witness :
    ((3, 3) ∈ (computeSketchIncreasesFromSnapshots prevC9 latestC9).map
        (fun e => (e.id, e.delta)) ↔
      (3, 3) ∈ (computeLatestSketchIncreasesFromSeries
        (builtSeries [prevC9, latestC9])).map (fun e => (e.id, e.delta))) :=
  C3_increase_equivalence [prevC9, latestC9] 3 3 (by decide) (by decide) (by decide)
    (by decide)

end OPViews
